import Mathlib

/-!
# PhysXVehicles: input smoothing, substep selection, raycast-batch sizing, drivetrain, unit conversions

A shallow embedding of the vehicle code of `Source/PhysXVehicles/Public`.
A `float` value is embedded as the rational number it denotes. The method
`InterpInputValue` is given in two readings of its float operations:
`InterpInputValue` takes them as exact (the arithmetic the code writes down),
and `InterpInputValueF32` rounds each of them to binary32 as the compiled code
does; `stepExactF32` says that at given inputs the rounding changes none of the
three results, so that the two readings agree there. Properties that rounding
breaks are proved on the exact reading and on `InterpInputValueF32` under
`stepExactF32`, next to an input at which the binary32 body violates them;
properties that survive rounding are proved on `InterpInputValueF32` outright.
Infinities and NaN are not modelled.
-/

namespace PhysXVehicles

/-! ## Definitions -/

/-- Modelled from the spec: `FMath::Clamp` belongs to the engine core and is not
part of this repository; §4.4 only says that the step "is clamped". The
engine's definition is the comparison chain `X<Min ? Min : X<Max ? X : Max`. -/
def Clamp (X Min Max : ℚ) : ℚ :=
  if X < Min then Min else if X < Max then X else Max

/-- The mathematical clamp the specification speaks of: `x` limited to `[lo, hi]`. -/
def specClamp (x lo hi : ℚ) : ℚ := max lo (min x hi)

/-- The sign of a rational, as `-1`, `0` or `1`; used to read "has the same sign as". -/
def sgn (x : ℚ) : Int := if 0 < x then 1 else if x < 0 then -1 else 0

/-- `USTRUCT FVehicleInputRate`: the two rates of one input channel. -/
structure FVehicleInputRate where
  RiseRate : ℚ
  FallRate : ℚ
deriving DecidableEq, Repr

/-- The constructor `FVehicleInputRate() : RiseRate(5.0f), FallRate(5.0f)`. -/
def FVehicleInputRate.default : FVehicleInputRate := ⟨5, 5⟩

/-- The local `bRising` of `InterpInputValue`:
`((DeltaValue > 0.0f) == (CurrentValue > 0.0f)) || ((DeltaValue != 0.f) && (CurrentValue == 0.f))`. -/
def bRising (DeltaValue CurrentValue : ℚ) : Bool :=
  (decide (DeltaValue > 0) == decide (CurrentValue > 0)) ||
    (decide (DeltaValue ≠ 0) && decide (CurrentValue = 0))

/-- The method `FVehicleInputRate::InterpInputValue(DeltaTime, CurrentValue, NewValue)`
over exact arithmetic: the subtraction, the product and the sum of the body are
taken without rounding. The binary32 reading is `InterpInputValueF32`. -/
def FVehicleInputRate.InterpInputValue (r : FVehicleInputRate)
    (DeltaTime CurrentValue NewValue : ℚ) : ℚ :=
  let DeltaValue := NewValue - CurrentValue
  let MaxDeltaValue := DeltaTime * (if bRising DeltaValue CurrentValue then r.RiseRate else r.FallRate)
  let ClampedDeltaValue := Clamp DeltaValue (-MaxDeltaValue) MaxDeltaValue
  CurrentValue + ClampedDeltaValue

/-- The power `2 ^ e` of an integer exponent, as a rational. -/
def pow2 (e : Int) : ℚ :=
  if 0 ≤ e then ((2 ^ e.toNat : Nat) : ℚ) else 1 / ((2 ^ (-e).toNat : Nat) : ℚ)

/-- Rounding of a rational to the nearest integer, a tie going to the even one. -/
def roundHalfEven (x : ℚ) : Int :=
  let f := ⌊x⌋
  let d := x - f
  if d < 1 / 2 then f else if 1 / 2 < d then f + 1 else if f % 2 = 0 then f else f + 1

/-- The position of the leading binary digit of `n` (0 for `n < 2`), by halving. -/
def natLog2 : Nat → Nat → Nat
  | 0, _ => 0
  | fuel + 1, n => if n < 2 then 0 else natLog2 fuel (n / 2) + 1

/-- The binary exponent of a positive rational `x`: the `e` with `2 ^ e ≤ x < 2 ^ (e + 1)`. -/
def floorLog2 (x : ℚ) : Int :=
  let e0 : Int := (natLog2 x.num.natAbs x.num.natAbs : Int) - (natLog2 x.den x.den : Int)
  if x < pow2 e0 then e0 - 1 else e0

/-- Rounding of a real result to binary32 (IEEE 754 single precision, the C++ `float`),
to nearest with ties to even: 24 significant bits, smallest exponent -126
(subnormal numbers included). Results beyond the largest finite value, where
the machine gives an infinity, are not modelled. -/
def roundF32 (x : ℚ) : ℚ :=
  if x = 0 then 0
  else
    let e := max (floorLog2 |x|) (-126)
    let q := pow2 (e - 23)
    (roundHalfEven (x / q) : ℚ) * q

/-- The body of `FVehicleInputRate::InterpInputValue` with every float operation (the
subtraction, the product, the sum) followed by the rounding `rnd`. Negation,
comparison and `FMath::Clamp` do not round. -/
def FVehicleInputRate.InterpInputValueRnd (rnd : ℚ → ℚ) (r : FVehicleInputRate)
    (DeltaTime CurrentValue NewValue : ℚ) : ℚ :=
  let DeltaValue := rnd (NewValue - CurrentValue)
  let MaxDeltaValue :=
    rnd (DeltaTime * (if bRising DeltaValue CurrentValue then r.RiseRate else r.FallRate))
  let ClampedDeltaValue := Clamp DeltaValue (-MaxDeltaValue) MaxDeltaValue
  rnd (CurrentValue + ClampedDeltaValue)

/-- The method `FVehicleInputRate::InterpInputValue` as the compiled code computes it:
every float operation rounded to binary32. -/
def FVehicleInputRate.InterpInputValueF32 (r : FVehicleInputRate)
    (DeltaTime CurrentValue NewValue : ℚ) : ℚ :=
  r.InterpInputValueRnd roundF32 DeltaTime CurrentValue NewValue

/-- The binary32 value of the literal `0.1f`. -/
def f32_tenth : ℚ := 13421773 / 134217728

/-- The binary32 value of `1.0f / 60.0f`, the length of a tick at 60 frames per second. -/
def f32_sixtieth : ℚ := 8947849 / 536870912

/-- The tuning properties of `UWheeledVehicleMovementComponent` that select the
sub-step count and bound the normalized tire load. -/
structure UWheeledVehicleMovementComponent where
  MinNormalizedTireLoad : ℚ
  MinNormalizedTireLoadFiltered : ℚ
  MaxNormalizedTireLoad : ℚ
  MaxNormalizedTireLoadFiltered : ℚ
  ThresholdLongitudinalSpeed : ℚ
  LowForwardSpeedSubStepCount : Int
  HighForwardSpeedSubStepCount : Int
deriving DecidableEq, Repr

/-- Modelled from the spec: the sub-step selection of the update loop is not in the
headers (only the three properties are). §4.1: the low-speed tier is "used when
the vehicle's longitudinal speed magnitude is below a configured threshold",
"and a high-speed tier ... otherwise". -/
def subStepCount (v : UWheeledVehicleMovementComponent) (longitudinalSpeed : ℚ) : Int :=
  if |longitudinalSpeed| < v.ThresholdLongitudinalSpeed then v.LowForwardSpeedSubStepCount
  else v.HighForwardSpeedSubStepCount

/-- Modelled from the spec: the glossary entry "Normalized tire load: current vertical
force on a tire divided by its at-rest (static) load"; the code computing the
field `FTireShaderInput::NormalizedTireLoad` is not in the headers. -/
def rawNormalizedTireLoad (RestTireLoad TireLoad : ℚ) : ℚ := TireLoad / RestTireLoad

/-- Modelled from the spec: the clamping of the normalized load is not in the headers
(only the properties `MinNormalizedTireLoad` and `MaxNormalizedTireLoad`, each
documented "Clamp normalized tire load to this value"). §4.3: the ratio of
current load and rest load is "clamped to a configured [min, max] normalized-load
range". -/
def usedNormalizedTireLoad (v : UWheeledVehicleMovementComponent)
    (RestTireLoad TireLoad : ℚ) : ℚ :=
  Clamp (rawNormalizedTireLoad RestTireLoad TireLoad) v.MinNormalizedTireLoad v.MaxNormalizedTireLoad

/-- The raycast-batch state of `FPhysXVehicleManager`: the wheel count of every
registered vehicle (`PVehicles`), the lengths of the two per-wheel buffers
`WheelQueryResults` and `WheelHitResults`, the size the batch query
`WheelRaycastBatchQuery` was created with (`none` while it is null), and a
ghost counter of the reallocations done so far. -/
structure FPhysXVehicleManager where
  PVehicles : List Nat
  WheelQueryResults : Nat
  WheelHitResults : Nat
  WheelRaycastBatchQuery : Option Nat
  Reallocations : Nat
deriving DecidableEq, Repr

/-- The total wheel count over all registered vehicles. -/
def FPhysXVehicleManager.NumWheels (m : FPhysXVehicleManager) : Nat := m.PVehicles.sum

/-- The current batch capacity: the length of the per-wheel query-result buffer. -/
def FPhysXVehicleManager.capacity (m : FPhysXVehicleManager) : Nat := m.WheelQueryResults

/-- Modelled from the spec: the body of `FPhysXVehicleManager::SetUpBatchedSceneQuery`
is not in the headers (its declaration says "Reallocate the
WheelRaycastBatchQuery if our number of wheels has increased"). §4.1: "if total
wheel count across all active vehicles exceeds the previously allocated
raycast-batch capacity, reallocate the batch (hit buffer + per-wheel
query-result buffer) to the new capacity; never shrink eagerly". -/
def FPhysXVehicleManager.SetUpBatchedSceneQuery (m : FPhysXVehicleManager) :
    FPhysXVehicleManager :=
  if m.NumWheels > m.capacity then
    { m with
      WheelQueryResults := m.NumWheels
      WheelHitResults := m.NumWheels
      WheelRaycastBatchQuery := some m.NumWheels
      Reallocations := m.Reallocations + 1 }
  else m

/-- Modelled from the spec: the body of `FPhysXVehicleManager::AddVehicle` is not in
the headers. §4.1 `register(vehicle)`: an add to the active list; here the
vehicle is represented by its wheel count. -/
def FPhysXVehicleManager.AddVehicle (m : FPhysXVehicleManager) (wheels : Nat) :
    FPhysXVehicleManager :=
  { m with PVehicles := m.PVehicles ++ [wheels] }

/-- The helper `RPMToOmega` (rev per minute to rad/s): `RPM * PI / 30.f`. The engine
macro `PI` is not part of this repository and is taken as a parameter; the
arithmetic is that of an ordered field `K` (the reals with the number pi, or
the rationals with the engine's float constant). -/
def RPMToOmega {K : Type} [LinearOrderedField K] (PI RPM : K) : K := RPM * PI / 30

/-- The helper `OmegaToRPM` (rad/s to rev per minute): `Omega * 30.f / PI`. -/
def OmegaToRPM {K : Type} [LinearOrderedField K] (PI Omega : K) : K := Omega * 30 / PI

/-- The helper `KmHToCmS` (km/h to cm/s): `KmH * 100000.f / 3600.f`. -/
def KmHToCmS {K : Type} [LinearOrderedField K] (KmH : K) : K := KmH * 100000 / 3600

/-- The helper `CmSToKmH`: `CmS * 3600.f / 100000.f`. -/
def CmSToKmH {K : Type} [LinearOrderedField K] (CmS : K) : K := CmS * 3600 / 100000

/-- The helper `M2ToCm2`: `M2 * 100.f * 100.f`. -/
def M2ToCm2 {K : Type} [LinearOrderedField K] (M2 : K) : K := M2 * 100 * 100

/-- The helper `Cm2ToM2`: `Cm2 / (100.f * 100.f)`. -/
def Cm2ToM2 {K : Type} [LinearOrderedField K] (Cm2 : K) : K := Cm2 / (100 * 100)

/-- The smoothed value after `n` ticks of length `DeltaTime` toward a fixed raw target
`NewValue`, each tick storing the result of `InterpInputValue` as the new
current value; over exact arithmetic. The binary32 reading is `smoothF32`. -/
def FVehicleInputRate.smooth (r : FVehicleInputRate) (DeltaTime NewValue : ℚ) :
    Nat → ℚ → ℚ
  | 0, CurrentValue => CurrentValue
  | n + 1, CurrentValue =>
      FVehicleInputRate.smooth r DeltaTime NewValue n
        (r.InterpInputValue DeltaTime CurrentValue NewValue)

/-- The smoothed value after `n` ticks as the compiled code computes it: each tick stores
the binary32 result of `InterpInputValueF32` as the new current value. -/
def FVehicleInputRate.smoothF32 (r : FVehicleInputRate) (DeltaTime NewValue : ℚ) :
    Nat → ℚ → ℚ
  | 0, CurrentValue => CurrentValue
  | n + 1, CurrentValue =>
      FVehicleInputRate.smoothF32 r DeltaTime NewValue n
        (r.InterpInputValueF32 DeltaTime CurrentValue NewValue)

/-- The three float operations of one call of `InterpInputValue` (the subtraction, the
product and the sum) are exact in binary32 at these inputs: rounding changes none of the
three results. -/
def FVehicleInputRate.stepExactF32 (r : FVehicleInputRate)
    (DeltaTime CurrentValue NewValue : ℚ) : Prop :=
  roundF32 (NewValue - CurrentValue) = NewValue - CurrentValue ∧
  roundF32 (DeltaTime *
      (if bRising (NewValue - CurrentValue) CurrentValue then r.RiseRate else r.FallRate)) =
    DeltaTime *
      (if bRising (NewValue - CurrentValue) CurrentValue then r.RiseRate else r.FallRate) ∧
  roundF32 (r.InterpInputValue DeltaTime CurrentValue NewValue) =
    r.InterpInputValue DeltaTime CurrentValue NewValue

instance FVehicleInputRate.decidableStepExactF32 (r : FVehicleInputRate)
    (DeltaTime CurrentValue NewValue : ℚ) :
    Decidable (r.stepExactF32 DeltaTime CurrentValue NewValue) :=
  inferInstanceAs (Decidable (_ ∧ _ ∧ _))

/-- Every float operation of a run of `n` ticks toward `NewValue` is exact in binary32. -/
def FVehicleInputRate.runExactF32 (r : FVehicleInputRate) (DeltaTime NewValue : ℚ) :
    Nat → ℚ → Prop
  | 0, _ => True
  | n + 1, CurrentValue =>
      r.stepExactF32 DeltaTime CurrentValue NewValue ∧
        FVehicleInputRate.runExactF32 r DeltaTime NewValue n
          (r.InterpInputValue DeltaTime CurrentValue NewValue)

instance FVehicleInputRate.decidableRunExactF32 (r : FVehicleInputRate)
    (DeltaTime NewValue : ℚ) :
    (n : Nat) → (CurrentValue : ℚ) → Decidable (r.runExactF32 DeltaTime NewValue n CurrentValue)
  | 0, _ => isTrue trivial
  | n + 1, CurrentValue =>
    @instDecidableAnd _ _ (r.decidableStepExactF32 DeltaTime CurrentValue NewValue)
      (FVehicleInputRate.decidableRunExactF32 r DeltaTime NewValue n
        (r.InterpInputValue DeltaTime CurrentValue NewValue))

/-- The enumeration `EVehicleDifferential4W::Type`. -/
inductive EVehicleDifferential4W where
  | LimitedSlip_4W
  | LimitedSlip_FrontDrive
  | LimitedSlip_RearDrive
  | Open_4W
  | Open_FrontDrive
  | Open_RearDrive
deriving DecidableEq, Repr

/-- `USTRUCT FVehicleDifferential4WData`. -/
structure FVehicleDifferential4WData where
  DifferentialType : EVehicleDifferential4W
  FrontRearSplit : ℚ
  FrontLeftRightSplit : ℚ
  RearLeftRightSplit : ℚ
  CentreBias : ℚ
  FrontBias : ℚ
  RearBias : ℚ
deriving DecidableEq, Repr

/-- Modelled from the spec: the torque split of the differential is not in the headers
(only the data above). §4.2: the differential "splits the post-gearbox torque
across wheel groups according to the configured topology (open vs limited-slip;
front/rear split ratio; left/right split ratio per axle)"; the header documents
`FrontRearSplit` as the "ratio of torque split between front and rear (>0.5
means more to front, <0.5 means more to rear, works only with 4W type)". The
pair is (front axle torque, rear axle torque) for a total drive torque while no
wheel is slipping; a front-drive type sends all of it to the front axle and a
rear-drive type all of it to the rear axle. -/
def frontRearTorque (d : FVehicleDifferential4WData) (Torque : ℚ) : ℚ × ℚ :=
  match d.DifferentialType with
  | .LimitedSlip_4W | .Open_4W => (d.FrontRearSplit * Torque, Torque - d.FrontRearSplit * Torque)
  | .LimitedSlip_FrontDrive | .Open_FrontDrive => (Torque, 0)
  | .LimitedSlip_RearDrive | .Open_RearDrive => (0, Torque)

/-- `USTRUCT FVehicleGearData`. -/
structure FVehicleGearData where
  Ratio : ℚ
  DownRatio : ℚ
  UpRatio : ℚ
deriving DecidableEq, Repr

/-- `USTRUCT FVehicleTransmissionData`. -/
structure FVehicleTransmissionData where
  bUseGearAutoBox : Bool
  GearSwitchTime : ℚ
  GearAutoBoxLatency : ℚ
  FinalRatio : ℚ
  ForwardGears : List FVehicleGearData
  ReverseGearRatio : ℚ
  NeutralGearUpRatio : ℚ
  ClutchStrength : ℚ
deriving DecidableEq, Repr

/-- The gear part of the drivetrain state of §3: the current gear index (negative =
reverse, 0 = neutral, positive = forward gear) and the time since the last
automatic gear change. -/
structure GearState where
  CurrentGear : Int
  GearChangeTimer : ℚ
deriving DecidableEq, Repr

/-- The data of forward gear `Gear` (1 is the first entry of `ForwardGears`), if there is one. -/
def forwardGearData (t : FVehicleTransmissionData) (Gear : Int) : Option FVehicleGearData :=
  if 1 ≤ Gear then t.ForwardGears[(Gear - 1).toNat]? else none

/-- Modelled from the spec: the automatic gearbox is not in the headers (only its data).
§4.2, automatic mode: "shift up when engineRPM/maxRPM ≥ upRatio of the current
gear, shift down when ≤ downRatio; a configured latency (minimum time between
automatic shifts) prevents oscillation"; §3: the "gear index always indexes a
valid entry in the configured gear-ratio table". One simulation step of length
`DeltaTime` at the ratio `RPMRatio` = engineRPM/maxRPM: within the latency
after a change, and in neutral or reverse, only the timer advances. -/
def autoBoxStep (t : FVehicleTransmissionData) (s : GearState) (DeltaTime RPMRatio : ℚ) :
    GearState :=
  if t.bUseGearAutoBox = false then { s with GearChangeTimer := s.GearChangeTimer + DeltaTime }
  else if s.GearChangeTimer < t.GearAutoBoxLatency then
    { s with GearChangeTimer := s.GearChangeTimer + DeltaTime }
  else
    match forwardGearData t s.CurrentGear with
    | none => { s with GearChangeTimer := s.GearChangeTimer + DeltaTime }
    | some g =>
      if g.UpRatio ≤ RPMRatio ∧ s.CurrentGear < t.ForwardGears.length then
        { CurrentGear := s.CurrentGear + 1, GearChangeTimer := 0 }
      else if RPMRatio ≤ g.DownRatio ∧ 1 < s.CurrentGear then
        { CurrentGear := s.CurrentGear - 1, GearChangeTimer := 0 }
      else { s with GearChangeTimer := s.GearChangeTimer + DeltaTime }

/-- A run of simulation steps, each given as (DeltaTime, engineRPM/maxRPM). -/
def autoBoxRun (t : FVehicleTransmissionData) (s : GearState) (steps : List (ℚ × ℚ)) :
    GearState :=
  steps.foldl (fun st i => autoBoxStep t st i.1 i.2) s

/-- The number of steps of a run at which the gear index goes up. -/
def autoBoxUpshifts (t : FVehicleTransmissionData) : GearState → List (ℚ × ℚ) → Nat
  | _, [] => 0
  | s, i :: rest =>
    (if s.CurrentGear < (autoBoxStep t s i.1 i.2).CurrentGear then 1 else 0) +
      autoBoxUpshifts t (autoBoxStep t s i.1 i.2) rest

/-- The number of steps of a run at which the gear index goes down. -/
def autoBoxDownshifts (t : FVehicleTransmissionData) : GearState → List (ℚ × ℚ) → Nat
  | _, [] => 0
  | s, i :: rest =>
    (if (autoBoxStep t s i.1 i.2).CurrentGear < s.CurrentGear then 1 else 0) +
      autoBoxDownshifts t (autoBoxStep t s i.1 i.2) rest

/-- Every step of the run starts while the gear-change timer, which reads `Timer` at the
first step and advances by the length of each step, is below `Latency`. -/
def startWithinLatency (Latency : ℚ) : ℚ → List (ℚ × ℚ) → Prop
  | _, [] => True
  | Timer, i :: rest => Timer < Latency ∧ startWithinLatency Latency (Timer + i.1) rest

/-- A transmission used to run the automatic gearbox on concrete inputs: automatic, three
forward gears that shift up at 0.65 and down at 0.5 of the maximum engine speed
(the first gear never shifts down), and a latency of 2 seconds. -/
def sampleTransmission : FVehicleTransmissionData :=
  { bUseGearAutoBox := true
    GearSwitchTime := 1 / 2
    GearAutoBoxLatency := 2
    FinalRatio := 4
    ForwardGears := [⟨4, 0, 13 / 20⟩, ⟨2, 1 / 2, 13 / 20⟩, ⟨1, 1 / 2, 13 / 20⟩]
    ReverseGearRatio := -4
    NeutralGearUpRatio := 1 / 3
    ClutchStrength := 10 }

/-! ## Helper lemmas -/

theorem Clamp_eq_specClamp (x m : ℚ) (hm : 0 ≤ m) : Clamp x (-m) m = specClamp x (-m) m := by
  unfold Clamp specClamp
  split_ifs with h1 h2
  · rw [min_eq_left (by linarith), max_eq_left (by linarith)]
  · rw [min_eq_left (by linarith), max_eq_right (by linarith)]
  · rw [min_eq_right (by linarith), max_eq_right (by linarith)]

theorem specClamp_zero (m : ℚ) (hm : 0 ≤ m) : specClamp 0 (-m) m = 0 := by
  unfold specClamp
  rw [min_eq_left hm, max_eq_right (by linarith)]

theorem Clamp_nonneg_arg (x m : ℚ) (hm : 0 ≤ m) (hx : 0 ≤ x) :
    0 ≤ Clamp x (-m) m ∧ Clamp x (-m) m ≤ x := by
  unfold Clamp
  split_ifs with h1 h2 <;> constructor <;> linarith

theorem Clamp_nonpos_arg (x m : ℚ) (hm : 0 ≤ m) (hx : x ≤ 0) :
    x ≤ Clamp x (-m) m ∧ Clamp x (-m) m ≤ 0 := by
  unfold Clamp
  split_ifs with h1 h2 <;> constructor <;> linarith

theorem bRising_eq_true_iff (d c : ℚ) :
    bRising d c = true ↔ ((0 < d ↔ 0 < c) ∨ (d ≠ 0 ∧ c = 0)) := by
  unfold bRising
  simp only [Bool.or_eq_true, Bool.and_eq_true, beq_iff_eq, decide_eq_true_eq, gt_iff_lt,
    decide_eq_decide]

theorem maxDelta_nonneg (r : FVehicleInputRate) (dt : ℚ) (b : Bool)
    (hdt : 0 ≤ dt) (hR : 0 ≤ r.RiseRate) (hF : 0 ≤ r.FallRate) :
    0 ≤ dt * (if b then r.RiseRate else r.FallRate) := by
  cases b
  · simpa using mul_nonneg hdt hF
  · simpa using mul_nonneg hdt hR

theorem InterpInputValue_unfold (r : FVehicleInputRate) (dt c n : ℚ) :
    r.InterpInputValue dt c n =
      c + Clamp (n - c) (-(dt * (if bRising (n - c) c then r.RiseRate else r.FallRate)))
        (dt * (if bRising (n - c) c then r.RiseRate else r.FallRate)) := rfl

theorem sgn_pos_iff (x : ℚ) : sgn x = 1 ↔ 0 < x := by
  unfold sgn
  split_ifs with h1 h2 <;> simp [h1]

theorem sgn_neg_iff (x : ℚ) : sgn x = -1 ↔ x < 0 := by
  unfold sgn
  split_ifs with h1 h2
  · simp; linarith
  · simp [h2]
  · simp [h2]

theorem sgn_zero_iff (x : ℚ) : sgn x = 0 ↔ x = 0 := by
  unfold sgn
  split_ifs with h1 h2
  · simp; linarith
  · simp; linarith
  · simp; linarith

theorem sgn_cases (x : ℚ) : (0 < x ∧ sgn x = 1) ∨ (x < 0 ∧ sgn x = -1) ∨ (x = 0 ∧ sgn x = 0) := by
  rcases lt_trichotomy 0 x with h | h | h
  · exact Or.inl ⟨h, (sgn_pos_iff x).2 h⟩
  · exact Or.inr (Or.inr ⟨h.symm, (sgn_zero_iff x).2 h.symm⟩)
  · exact Or.inr (Or.inl ⟨h, (sgn_neg_iff x).2 h⟩)

/-- A non-zero delta at a zero current value, or with the sign of the current
value, is classified as rising. -/
theorem bRising_of_same_sign (d c : ℚ) (hd : d ≠ 0) (h : c = 0 ∨ sgn d = sgn c) :
    bRising d c = true := by
  rw [bRising_eq_true_iff]
  rcases h with h | h
  · exact Or.inr ⟨hd, h⟩
  · rcases sgn_cases d with ⟨h1, h2⟩ | ⟨h1, h2⟩ | ⟨h1, _⟩
    · have : 0 < c := (sgn_pos_iff c).1 (by rw [← h, h2])
      exact Or.inl ⟨fun _ => this, fun _ => h1⟩
    · have : c < 0 := (sgn_neg_iff c).1 (by rw [← h, h2])
      exact Or.inl ⟨fun h0 => absurd h0 (by linarith), fun h0 => absurd h0 (by linarith)⟩
    · exact absurd h1 hd

/-- A non-zero delta against the sign of a non-zero current value is classified
as falling. -/
theorem bRising_of_opposite_sign (d c : ℚ) (hd : d ≠ 0) (hc : c ≠ 0) (h : sgn d = -sgn c) :
    bRising d c = false := by
  rw [← Bool.not_eq_true, bRising_eq_true_iff]
  rintro (h' | ⟨_, h'⟩)
  · rcases sgn_cases d with ⟨h1, h2⟩ | ⟨h1, h2⟩ | ⟨h1, _⟩
    · have h3 : 0 < c := h'.1 h1
      rw [h2, (sgn_pos_iff c).2 h3] at h
      omega
    · rcases sgn_cases c with ⟨h3, _⟩ | ⟨h3, h4⟩ | ⟨h3, _⟩
      · have := h'.2 h3
        linarith
      · rw [h2, h4] at h
        omega
      · exact hc h3
    · exact hd h1
  · exact hc h'

/-- The step taken lies between zero and the delta. -/
theorem InterpInputValue_between (r : FVehicleInputRate) (dt c n : ℚ)
    (hdt : 0 ≤ dt) (hR : 0 ≤ r.RiseRate) (hF : 0 ≤ r.FallRate) :
    min c n ≤ r.InterpInputValue dt c n ∧ r.InterpInputValue dt c n ≤ max c n := by
  rw [InterpInputValue_unfold]
  have hm := maxDelta_nonneg r dt (bRising (n - c) c) hdt hR hF
  rcases le_total c n with h | h
  · have := Clamp_nonneg_arg (n - c) _ hm (by linarith)
    rw [min_eq_left h, max_eq_right h]
    constructor <;> linarith [this.1, this.2]
  · have := Clamp_nonpos_arg (n - c) _ hm (by linarith)
    rw [min_eq_right h, max_eq_left h]
    constructor <;> linarith [this.1, this.2]

theorem SetUpBatchedSceneQuery_of_gt (m : FPhysXVehicleManager) (h : m.NumWheels > m.capacity) :
    m.SetUpBatchedSceneQuery =
      ⟨m.PVehicles, m.NumWheels, m.NumWheels, some m.NumWheels, m.Reallocations + 1⟩ := by
  unfold FPhysXVehicleManager.SetUpBatchedSceneQuery
  rw [if_pos h]

theorem SetUpBatchedSceneQuery_of_le (m : FPhysXVehicleManager) (h : m.NumWheels ≤ m.capacity) :
    m.SetUpBatchedSceneQuery = m := by
  unfold FPhysXVehicleManager.SetUpBatchedSceneQuery
  rw [if_neg (not_lt.2 h)]

/-- A delta within the step bound is taken whole. -/
theorem InterpInputValue_arrive (r : FVehicleInputRate) (dt c n : ℚ)
    (h : |n - c| ≤ dt * (if bRising (n - c) c then r.RiseRate else r.FallRate)) :
    r.InterpInputValue dt c n = n := by
  rw [InterpInputValue_unfold]
  generalize dt * (if bRising (n - c) c then r.RiseRate else r.FallRate) = m at h
  have h1 := (abs_le.1 h).1
  have h2 := (abs_le.1 h).2
  unfold Clamp
  split_ifs with h3 h4
  · linarith
  · linarith
  · linarith

/-- One step shortens the distance to the target by the smaller step bound, or to zero. -/
theorem InterpInputValue_dist_le (r : FVehicleInputRate) (dt c n : ℚ)
    (hdt : 0 ≤ dt) (hR : 0 ≤ r.RiseRate) (hF : 0 ≤ r.FallRate) :
    |n - r.InterpInputValue dt c n| ≤ max 0 (|n - c| - dt * min r.RiseRate r.FallRate) := by
  rw [InterpInputValue_unfold]
  have hm : dt * min r.RiseRate r.FallRate ≤
      dt * (if bRising (n - c) c then r.RiseRate else r.FallRate) := by
    apply mul_le_mul_of_nonneg_left _ hdt
    cases bRising (n - c) c
    · simp
    · simp
  have hμ : 0 ≤ dt * min r.RiseRate r.FallRate := mul_nonneg hdt (le_min hR hF)
  generalize dt * (if bRising (n - c) c then r.RiseRate else r.FallRate) = m at hm
  generalize dt * min r.RiseRate r.FallRate = μ at hm hμ
  unfold Clamp
  split_ifs with h1 h2
  · have e : n - (c + -m) = n - c + m := by ring
    rw [e, abs_of_nonpos (by linarith), abs_of_neg (by linarith : n - c < 0)]
    exact le_max_of_le_right (by linarith)
  · have e : n - (c + (n - c)) = 0 := by ring
    rw [e, abs_zero]
    exact le_max_left _ _
  · have e : n - (c + m) = n - c - m := by ring
    rw [e, abs_of_nonneg (by linarith), abs_of_nonneg (by linarith : 0 ≤ n - c)]
    exact le_max_of_le_right (by linarith)

theorem smooth_dist_le (r : FVehicleInputRate) (dt n : ℚ)
    (hdt : 0 ≤ dt) (hR : 0 ≤ r.RiseRate) (hF : 0 ≤ r.FallRate) (k : Nat) :
    ∀ c : ℚ, |n - r.smooth dt n k c| ≤ max 0 (|n - c| - k * (dt * min r.RiseRate r.FallRate)) := by
  have hμ : 0 ≤ dt * min r.RiseRate r.FallRate := mul_nonneg hdt (le_min hR hF)
  induction k with
  | zero =>
    intro c
    simp [FVehicleInputRate.smooth]
  | succ k ih =>
    intro c
    have h1 := ih (r.InterpInputValue dt c n)
    have h2 := InterpInputValue_dist_le r dt c n hdt hR hF
    have hk : (0 : ℚ) ≤ k := Nat.cast_nonneg k
    have hkμ : 0 ≤ (k : ℚ) * (dt * min r.RiseRate r.FallRate) := mul_nonneg hk hμ
    show |n - r.smooth dt n k (r.InterpInputValue dt c n)| ≤ _
    refine le_trans h1 ?_
    push_cast
    generalize dt * min r.RiseRate r.FallRate = μ at *
    generalize |n - r.InterpInputValue dt c n| = a at *
    generalize |n - c| = b at *
    rcases le_total 0 (b - μ) with h3 | h3
    · rw [max_eq_right h3] at h2
      apply max_le (le_max_left _ _)
      exact le_max_of_le_right (by nlinarith)
    · rw [max_eq_left h3] at h2
      apply max_le (le_max_left _ _)
      exact le_max_of_le_left (by nlinarith)

theorem smooth_fixed (r : FVehicleInputRate) (dt n : ℚ)
    (hfix : r.InterpInputValue dt n n = n) (j : Nat) : r.smooth dt n j n = n := by
  induction j with
  | zero => rfl
  | succ j ih =>
    show r.smooth dt n j (r.InterpInputValue dt n n) = n
    rw [hfix, ih]

theorem smooth_add (r : FVehicleInputRate) (dt n : ℚ) (k j : Nat) :
    ∀ c : ℚ, r.smooth dt n (k + j) c = r.smooth dt n j (r.smooth dt n k c) := by
  induction k with
  | zero =>
    intro c
    rw [Nat.zero_add]
    rfl
  | succ k ih =>
    intro c
    rw [Nat.succ_add]
    show r.smooth dt n (k + j) (r.InterpInputValue dt c n) = _
    rw [ih]
    rfl

theorem smooth_eq_iterate (r : FVehicleInputRate) (dt n : ℚ) (k : Nat) :
    ∀ c : ℚ, r.smooth dt n k c = (fun x => r.InterpInputValue dt x n)^[k] c := by
  induction k with
  | zero => intro c; rfl
  | succ k ih =>
    intro c
    rw [Function.iterate_succ_apply]
    exact ih _

/-- Within the latency after a gear change a step only advances the timer. -/
theorem autoBoxStep_within_latency (t : FVehicleTransmissionData) (s : GearState) (dt ratio : ℚ)
    (h : s.GearChangeTimer < t.GearAutoBoxLatency) :
    autoBoxStep t s dt ratio = ⟨s.CurrentGear, s.GearChangeTimer + dt⟩ := by
  unfold autoBoxStep
  split_ifs with h1
  · rfl
  · rfl

/-- The clamp is monotone in its argument. -/
theorem Clamp_mono (x y lo hi : ℚ) (hlh : lo ≤ hi) (hxy : x ≤ y) :
    Clamp x lo hi ≤ Clamp y lo hi := by
  unfold Clamp
  split_ifs <;> linarith

/-- A positive delta is classified as rising exactly when the current value is not negative. -/
theorem bRising_pos_delta_iff (d c : ℚ) (hd : 0 < d) : bRising d c = true ↔ 0 ≤ c := by
  rw [bRising_eq_true_iff]
  constructor
  · rintro (h | ⟨_, h⟩)
    · exact (h.1 hd).le
    · exact h.ge
  · intro hc
    rcases lt_or_eq_of_le hc with h | h
    · exact Or.inl ⟨fun _ => h, fun _ => hd⟩
    · exact Or.inr ⟨hd.ne', h.symm⟩

/-- A negative delta is classified as rising exactly when the current value is not positive. -/
theorem bRising_neg_delta_iff (d c : ℚ) (hd : d < 0) : bRising d c = true ↔ c ≤ 0 := by
  rw [bRising_eq_true_iff]
  constructor
  · rintro (h | ⟨_, h⟩)
    · exact not_lt.1 (fun hc => absurd (h.2 hc) (not_lt.2 hd.le))
    · exact h.le
  · intro hc
    exact Or.inl ⟨fun h => absurd h (not_lt.2 hd.le), fun h => absurd h (not_lt.2 hc)⟩

/-- Two deltas of the same strict sign select the same rate. -/
theorem bRising_congr_of_pos (d1 d2 c : ℚ) (h1 : 0 < d1) (h2 : 0 < d2) :
    bRising d1 c = bRising d2 c := by
  rw [Bool.eq_iff_iff, bRising_pos_delta_iff d1 c h1, bRising_pos_delta_iff d2 c h2]

theorem bRising_congr_of_neg (d1 d2 c : ℚ) (h1 : d1 < 0) (h2 : d2 < 0) :
    bRising d1 c = bRising d2 c := by
  rw [Bool.eq_iff_iff, bRising_neg_delta_iff d1 c h1, bRising_neg_delta_iff d2 c h2]

/-- Two clamped steps upward add up to one clamped step with the summed bound. -/
theorem Clamp_add_of_gt (D m1 m2 : ℚ) (h1 : 0 ≤ m1) (h2 : 0 ≤ m2) (hD : m1 < D) :
    m1 + Clamp (D - m1) (-m2) m2 = Clamp D (-(m1 + m2)) (m1 + m2) := by
  unfold Clamp
  split_ifs <;> linarith

/-- Two clamped steps downward add up to one clamped step with the summed bound. -/
theorem Clamp_add_of_lt (D m1 m2 : ℚ) (h1 : 0 ≤ m1) (hD : D < -m1) :
    -m1 + Clamp (D + m1) (-m2) m2 = Clamp D (-(m1 + m2)) (m1 + m2) := by
  unfold Clamp
  split_ifs <;> linarith

/-- The step with the rate named by a known value of `bRising`. -/
theorem InterpInputValue_of_bRising (r : FVehicleInputRate) (dt c n : ℚ) (b : Bool)
    (hb : bRising (n - c) c = b) :
    r.InterpInputValue dt c n =
      c + Clamp (n - c) (-(dt * (if b then r.RiseRate else r.FallRate)))
        (dt * (if b then r.RiseRate else r.FallRate)) := by
  rw [InterpInputValue_unfold, hb]

/-- Two ticks toward a target on the same side of zero equal one tick of the summed length. -/
theorem InterpInputValue_add_time (r : FVehicleInputRate) (dt1 dt2 c t : ℚ)
    (h1 : 0 ≤ dt1) (h2 : 0 ≤ dt2) (hR : 0 ≤ r.RiseRate) (hF : 0 ≤ r.FallRate)
    (hct : 0 ≤ c * t) :
    r.InterpInputValue dt2 (r.InterpInputValue dt1 c t) t = r.InterpInputValue (dt1 + dt2) c t := by
  have hρ : 0 ≤ (if bRising (t - c) c then r.RiseRate else r.FallRate) := by
    cases bRising (t - c) c
    · simpa using hF
    · simpa using hR
  have e1 := InterpInputValue_of_bRising r dt1 c t _ rfl
  have e3 := InterpInputValue_of_bRising r (dt1 + dt2) c t _ rfl
  have hm1 := mul_nonneg h1 hρ
  have hm2 := mul_nonneg h2 hρ
  rw [add_mul] at e3
  have hpos : c < 0 → t ≤ 0 := fun hc =>
    not_lt.1 (fun ht => absurd hct (not_le.2 (mul_neg_of_neg_of_pos hc ht)))
  have hneg : 0 < c → 0 ≤ t := fun hc =>
    not_lt.1 (fun ht => absurd hct (not_le.2 (mul_neg_of_pos_of_neg hc ht)))
  generalize hρeq : (if bRising (t - c) c then r.RiseRate else r.FallRate) = ρ at e1 e3 hm1 hm2 hρ
  by_cases hlo : t - c < -(dt1 * ρ)
  · -- the first tick is limited by the step bound, downward
    have hx : r.InterpInputValue dt1 c t = c + -(dt1 * ρ) := by
      rw [e1]; unfold Clamp; rw [if_pos hlo]
    have hd : t - c < 0 := by linarith
    have hb : bRising (t - (c + -(dt1 * ρ))) (c + -(dt1 * ρ)) = bRising (t - c) c := by
      rw [Bool.eq_iff_iff, bRising_neg_delta_iff _ _ (by linarith), bRising_neg_delta_iff _ _ hd]
      constructor
      · intro h
        by_contra hc
        have := hneg (not_le.1 hc)
        linarith
      · intro h
        linarith
    have e2 := InterpInputValue_of_bRising r dt2 (c + -(dt1 * ρ)) t _ hb
    rw [hρeq] at e2
    have hadd := Clamp_add_of_lt (t - c) (dt1 * ρ) (dt2 * ρ) hm1 hlo
    have e : t - (c + -(dt1 * ρ)) = t - c + dt1 * ρ := by ring
    rw [hx, e2, e3, e]
    linarith
  · by_cases hhi : dt1 * ρ < t - c
    · -- the first tick is limited by the step bound, upward
      have hx : r.InterpInputValue dt1 c t = c + dt1 * ρ := by
        rw [e1]; unfold Clamp; rw [if_neg hlo, if_neg (not_lt.2 hhi.le)]
      have hd : 0 < t - c := by linarith
      have hb : bRising (t - (c + dt1 * ρ)) (c + dt1 * ρ) = bRising (t - c) c := by
        rw [Bool.eq_iff_iff, bRising_pos_delta_iff _ _ (by linarith), bRising_pos_delta_iff _ _ hd]
        constructor
        · intro h
          by_contra hc
          have := hpos (not_le.1 hc)
          linarith
        · intro h
          linarith
      have e2 := InterpInputValue_of_bRising r dt2 (c + dt1 * ρ) t _ hb
      rw [hρeq] at e2
      have hadd := Clamp_add_of_gt (t - c) (dt1 * ρ) (dt2 * ρ) hm1 hm2 hhi
      have e : t - (c + dt1 * ρ) = t - c - dt1 * ρ := by ring
      rw [hx, e2, e3, e]
      linarith
    · -- the first tick arrives at the target
      have hx : r.InterpInputValue dt1 c t = t := by
        rw [e1]; unfold Clamp; rw [if_neg hlo]
        split_ifs <;> linarith
      have hfix : r.InterpInputValue dt2 t t = t := by
        apply InterpInputValue_arrive
        rw [sub_self, abs_zero]
        exact maxDelta_nonneg r dt2 _ h2 hR hF
      rw [hx, hfix, e3]
      unfold Clamp
      split_ifs <;> linarith

/-- For a fixed current value the step is monotone in the target. -/
theorem InterpInputValue_mono (r : FVehicleInputRate) (dt c n1 n2 : ℚ)
    (hdt : 0 ≤ dt) (hR : 0 ≤ r.RiseRate) (hF : 0 ≤ r.FallRate) (h : n1 ≤ n2) :
    r.InterpInputValue dt c n1 ≤ r.InterpInputValue dt c n2 := by
  rcases lt_or_le c n1 with h1 | h1
  · -- both targets above the current value
    have hb := bRising_congr_of_pos (n1 - c) (n2 - c) c (by linarith) (by linarith)
    have hm := maxDelta_nonneg r dt (bRising (n2 - c) c) hdt hR hF
    rw [InterpInputValue_of_bRising r dt c n1 _ hb, InterpInputValue_of_bRising r dt c n2 _ rfl]
    have := Clamp_mono (n1 - c) (n2 - c) _ _ (by linarith : -(dt * (if bRising (n2 - c) c then
      r.RiseRate else r.FallRate)) ≤ dt * (if bRising (n2 - c) c then r.RiseRate else r.FallRate))
      (by linarith)
    linarith
  · rcases le_or_lt c n2 with h2 | h2
    · -- the current value lies between the targets
      have b1 := (InterpInputValue_between r dt c n1 hdt hR hF).2
      have b2 := (InterpInputValue_between r dt c n2 hdt hR hF).1
      rw [max_eq_left h1] at b1
      rw [min_eq_left h2] at b2
      exact le_trans b1 b2
    · -- both targets below the current value
      have hb := bRising_congr_of_neg (n1 - c) (n2 - c) c (by linarith) (by linarith)
      have hm := maxDelta_nonneg r dt (bRising (n2 - c) c) hdt hR hF
      rw [InterpInputValue_of_bRising r dt c n1 _ hb, InterpInputValue_of_bRising r dt c n2 _ rfl]
      have := Clamp_mono (n1 - c) (n2 - c) _ _ (by linarith : -(dt * (if bRising (n2 - c) c then
        r.RiseRate else r.FallRate)) ≤ dt * (if bRising (n2 - c) c then r.RiseRate else r.FallRate))
        (by linarith)
      linarith

/-- The exact reading is the rounded body with no rounding. -/
theorem InterpInputValueRnd_id (r : FVehicleInputRate) (dt c n : ℚ) :
    r.InterpInputValueRnd id dt c n = r.InterpInputValue dt c n := rfl

/-- Where the subtraction, the product and the sum of a call are not changed by the
rounding, the rounded body returns what the exact reading returns. -/
theorem InterpInputValueRnd_of_exact (rnd : ℚ → ℚ) (r : FVehicleInputRate) (dt c n : ℚ)
    (h1 : rnd (n - c) = n - c)
    (h2 : rnd (dt * (if bRising (n - c) c then r.RiseRate else r.FallRate)) =
      dt * (if bRising (n - c) c then r.RiseRate else r.FallRate))
    (h3 : rnd (r.InterpInputValue dt c n) = r.InterpInputValue dt c n) :
    r.InterpInputValueRnd rnd dt c n = r.InterpInputValue dt c n := by
  unfold FVehicleInputRate.InterpInputValueRnd
  simp only [h1, h2]
  exact h3

theorem autoBoxRun_append (t : FVehicleTransmissionData) (s : GearState) (a b : List (ℚ × ℚ)) :
    autoBoxRun t s (a ++ b) = autoBoxRun t (autoBoxRun t s a) b := by
  simp only [autoBoxRun, List.foldl_append]

theorem autoBoxRun_cons (t : FVehicleTransmissionData) (s : GearState) (i : ℚ × ℚ)
    (rest : List (ℚ × ℚ)) :
    autoBoxRun t s (i :: rest) = autoBoxRun t (autoBoxStep t s i.1 i.2) rest := by
  simp only [autoBoxRun, List.foldl_cons]

theorem autoBoxUpshifts_append (t : FVehicleTransmissionData) (a b : List (ℚ × ℚ)) :
    ∀ s : GearState, autoBoxUpshifts t s (a ++ b) =
      autoBoxUpshifts t s a + autoBoxUpshifts t (autoBoxRun t s a) b := by
  induction a with
  | nil => intro s; simp [autoBoxUpshifts, autoBoxRun]
  | cons i rest ih =>
    intro s
    show (if s.CurrentGear < (autoBoxStep t s i.1 i.2).CurrentGear then 1 else 0) +
        autoBoxUpshifts t (autoBoxStep t s i.1 i.2) (rest ++ b) =
      ((if s.CurrentGear < (autoBoxStep t s i.1 i.2).CurrentGear then 1 else 0) +
        autoBoxUpshifts t (autoBoxStep t s i.1 i.2) rest) +
        autoBoxUpshifts t (autoBoxRun t s (i :: rest)) b
    rw [ih, autoBoxRun_cons, Nat.add_assoc]

theorem autoBoxDownshifts_append (t : FVehicleTransmissionData) (a b : List (ℚ × ℚ)) :
    ∀ s : GearState, autoBoxDownshifts t s (a ++ b) =
      autoBoxDownshifts t s a + autoBoxDownshifts t (autoBoxRun t s a) b := by
  induction a with
  | nil => intro s; simp [autoBoxDownshifts, autoBoxRun]
  | cons i rest ih =>
    intro s
    show (if (autoBoxStep t s i.1 i.2).CurrentGear < s.CurrentGear then 1 else 0) +
        autoBoxDownshifts t (autoBoxStep t s i.1 i.2) (rest ++ b) =
      ((if (autoBoxStep t s i.1 i.2).CurrentGear < s.CurrentGear then 1 else 0) +
        autoBoxDownshifts t (autoBoxStep t s i.1 i.2) rest) +
        autoBoxDownshifts t (autoBoxRun t s (i :: rest)) b
    rw [ih, autoBoxRun_cons, Nat.add_assoc]

/-- Steps that all start within the latency change nothing but the timer. -/
theorem autoBoxRun_waiting (t : FVehicleTransmissionData) (steps : List (ℚ × ℚ)) :
    ∀ s : GearState, startWithinLatency t.GearAutoBoxLatency s.GearChangeTimer steps →
      autoBoxRun t s steps = ⟨s.CurrentGear, s.GearChangeTimer + (steps.map Prod.fst).sum⟩ ∧
      autoBoxUpshifts t s steps = 0 ∧ autoBoxDownshifts t s steps = 0 := by
  induction steps with
  | nil =>
    intro s _
    simp [autoBoxRun, autoBoxUpshifts, autoBoxDownshifts]
  | cons i rest ih =>
    intro s h
    obtain ⟨hlt, hrest⟩ := h
    have hstep := autoBoxStep_within_latency t s i.1 i.2 hlt
    have := ih ⟨s.CurrentGear, s.GearChangeTimer + i.1⟩ hrest
    simp only [autoBoxRun_cons, autoBoxUpshifts, autoBoxDownshifts, hstep, lt_self_iff_false,
      if_false, zero_add, List.map_cons, List.sum_cons]
    refine ⟨?_, this.2.1, this.2.2⟩
    rw [this.1, add_assoc]

/-- A step past the latency with the ratio strictly between the two thresholds of the
gear changes nothing but the timer. -/
theorem autoBoxStep_between (t : FVehicleTransmissionData) (s : GearState)
    (g : FVehicleGearData) (dt ratio : ℚ)
    (hgear : forwardGearData t s.CurrentGear = some g)
    (hdown : g.DownRatio < ratio) (hup : ratio < g.UpRatio) :
    autoBoxStep t s dt ratio = ⟨s.CurrentGear, s.GearChangeTimer + dt⟩ := by
  unfold autoBoxStep
  split_ifs with h1 h2
  · rfl
  · rfl
  · rw [hgear]
    simp only
    rw [if_neg (fun h => absurd h.1 (not_le.2 hup)), if_neg (fun h => absurd h.1 (not_le.2 hdown))]

/-- Steps with the ratio strictly between the two thresholds of the gear keep the gear. -/
theorem autoBoxRun_between (t : FVehicleTransmissionData) (g : FVehicleGearData)
    (steps : List (ℚ × ℚ)) :
    ∀ s : GearState, forwardGearData t s.CurrentGear = some g →
      (∀ i ∈ steps, 0 ≤ i.1 ∧ g.DownRatio < i.2 ∧ i.2 < g.UpRatio) →
      autoBoxRun t s steps = ⟨s.CurrentGear, s.GearChangeTimer + (steps.map Prod.fst).sum⟩ ∧
      0 ≤ (steps.map Prod.fst).sum ∧
      autoBoxUpshifts t s steps = 0 ∧ autoBoxDownshifts t s steps = 0 := by
  induction steps with
  | nil =>
    intro s _ _
    simp [autoBoxRun, autoBoxUpshifts, autoBoxDownshifts]
  | cons i rest ih =>
    intro s hgear h
    have hi := h i (List.mem_cons_self _ _)
    have hstep := autoBoxStep_between t s g i.1 i.2 hgear hi.2.1 hi.2.2
    have := ih ⟨s.CurrentGear, s.GearChangeTimer + i.1⟩ hgear
      (fun j hj => h j (List.mem_cons_of_mem _ hj))
    simp only [autoBoxRun_cons, autoBoxUpshifts, autoBoxDownshifts, hstep, lt_self_iff_false,
      if_false, zero_add, List.map_cons, List.sum_cons]
    refine ⟨?_, add_nonneg hi.1 this.2.1, this.2.2.1, this.2.2.2⟩
    rw [this.1, add_assoc]


theorem pow2_eq_zpow (e : Int) : pow2 e = (2 : ℚ) ^ e := by
  unfold pow2
  split_ifs with h
  · have : ((e.toNat : Int)) = e := Int.toNat_of_nonneg h
    conv_rhs => rw [← this]
    rw [zpow_natCast]
    push_cast
    rfl
  · have h' : 0 ≤ -e := by omega
    have : (((-e).toNat : Int)) = -e := Int.toNat_of_nonneg h'
    have e2 : e = -(((-e).toNat : Int)) := by omega
    conv_rhs => rw [e2]
    rw [zpow_neg, zpow_natCast]
    push_cast
    rw [one_div]

theorem pow2_pos (e : Int) : 0 < pow2 e := by
  rw [pow2_eq_zpow]
  exact zpow_pos (by norm_num) e

theorem pow2_add (a b : Int) : pow2 (a + b) = pow2 a * pow2 b := by
  rw [pow2_eq_zpow, pow2_eq_zpow, pow2_eq_zpow, zpow_add₀ (by norm_num)]

theorem pow2_le_pow2 (a b : Int) (h : a ≤ b) : pow2 a ≤ pow2 b := by
  rw [pow2_eq_zpow, pow2_eq_zpow]
  exact zpow_le_zpow_right₀ (by norm_num) h

theorem pow2_lt_pow2_iff (a b : Int) : pow2 a < pow2 b ↔ a < b := by
  rw [pow2_eq_zpow, pow2_eq_zpow]
  exact zpow_lt_zpow_iff_right₀ (by norm_num)

/-- The rounding to the nearest integer is within one half, and lands on an even integer
at a tie. -/
theorem roundHalfEven_spec (x : ℚ) :
    |x - roundHalfEven x| ≤ 1 / 2 ∧ (|x - roundHalfEven x| = 1 / 2 → roundHalfEven x % 2 = 0) := by
  have h1 := Int.floor_le x
  have h2 := Int.lt_floor_add_one x
  unfold roundHalfEven
  simp only
  split_ifs with ha hb hc
  · constructor
    · rw [abs_of_nonneg (by linarith)]; linarith
    · intro h
      rw [abs_of_nonneg (by linarith)] at h
      linarith
  · constructor
    · push_cast
      rw [abs_of_nonpos (by linarith)]; linarith
    · intro h
      push_cast at h
      rw [abs_of_nonpos (by linarith)] at h
      linarith
  · exact ⟨by rw [abs_of_nonneg (by linarith)]; linarith, fun _ => hc⟩
  · constructor
    · push_cast
      rw [abs_of_nonpos (by linarith)]; linarith
    · intro _
      omega

theorem roundHalfEven_unique (x : ℚ) (k : Int)
    (h : |x - k| < 1 / 2 ∨ (|x - k| = 1 / 2 ∧ k % 2 = 0)) : roundHalfEven x = k := by
  obtain ⟨s1, s2⟩ := roundHalfEven_spec x
  have hk : |x - k| ≤ 1 / 2 := by
    rcases h with h | h
    · exact h.le
    · exact h.1.le
  have hd : |((roundHalfEven x : ℚ)) - k| ≤ 1 := by
    have : ((roundHalfEven x : ℚ)) - k = (x - k) - (x - roundHalfEven x) := by ring
    rw [this]
    calc |(x - k) - (x - roundHalfEven x)| ≤ |x - k| + |x - roundHalfEven x| := abs_sub _ _
      _ ≤ 1 := by linarith
  have hd' : |roundHalfEven x - k| ≤ 1 := by
    have : ((|roundHalfEven x - k| : Int) : ℚ) ≤ 1 := by
      rw [Int.cast_abs]; push_cast; exact hd
    exact_mod_cast this
  by_contra hne
  have hone : |roundHalfEven x - k| = 1 := by
    have : 0 < |roundHalfEven x - k| := abs_pos.2 (sub_ne_zero.2 hne)
    omega
  -- both are at distance exactly one half, so both are even, yet they differ by one
  have hq : |((roundHalfEven x : ℚ)) - k| = 1 := by
    have : ((|roundHalfEven x - k| : Int) : ℚ) = 1 := by rw [hone]; norm_num
    rw [Int.cast_abs] at this; push_cast at this; exact this
  have e : ((roundHalfEven x : ℚ)) - k = (x - k) - (x - roundHalfEven x) := by ring
  have hsum : 1 ≤ |x - k| + |x - roundHalfEven x| := by
    rw [← hq, e]; exact abs_sub _ _
  have t1 : |x - roundHalfEven x| = 1 / 2 := by linarith
  have t2 : |x - k| = 1 / 2 := by linarith
  have ev1 := s2 t1
  have ev2 : k % 2 = 0 := by
    rcases h with h | h
    · linarith
    · exact h.2
  rcases abs_eq (by norm_num : (0 : Int) ≤ 1) |>.1 hone with h3 | h3 <;> omega

theorem roundHalfEven_neg (x : ℚ) : roundHalfEven (-x) = -roundHalfEven x := by
  obtain ⟨s1, s2⟩ := roundHalfEven_spec x
  apply roundHalfEven_unique
  have e : -x - ((-roundHalfEven x : Int) : ℚ) = -(x - roundHalfEven x) := by push_cast; ring
  rw [e, abs_neg]
  rcases lt_or_eq_of_le s1 with h | h
  · exact Or.inl h
  · exact Or.inr ⟨h, by have := s2 h; omega⟩

theorem roundHalfEven_intCast (n : Int) : roundHalfEven (n : ℚ) = n := by
  apply roundHalfEven_unique
  left
  simp

theorem roundHalfEven_mono (x y : ℚ) (h : x ≤ y) : roundHalfEven x ≤ roundHalfEven y := by
  by_contra hlt
  have hlt' : roundHalfEven y + 1 ≤ roundHalfEven x := by omega
  have hq : ((roundHalfEven y : ℚ)) + 1 ≤ roundHalfEven x := by exact_mod_cast hlt'
  have sx := (roundHalfEven_spec x).1
  have sy := (roundHalfEven_spec y).1
  have ax := (abs_le.1 sx)
  have ay := (abs_le.1 sy)
  have hxy : x = y := by linarith [ax.1, ax.2, ay.1, ay.2]
  rw [hxy] at hlt'
  omega


theorem natLog2_spec (fuel : Nat) :
    ∀ n : Nat, n ≤ fuel → 1 ≤ n → 2 ^ natLog2 fuel n ≤ n ∧ n < 2 ^ (natLog2 fuel n + 1) := by
  induction fuel with
  | zero => intro n h1 h2; omega
  | succ f ih =>
    intro n h1 h2
    unfold natLog2
    split_ifs with h
    · constructor <;> simp <;> omega
    · have hdiv : n / 2 ≤ f := by omega
      have hpos : 1 ≤ n / 2 := by omega
      obtain ⟨i1, i2⟩ := ih (n / 2) hdiv hpos
      rw [pow_succ, pow_succ, pow_succ]
      rw [pow_succ] at i2
      constructor <;> omega

theorem pow2_one : pow2 1 = 2 := by decide!

theorem pow2_neg_one : pow2 (-1) = 1 / 2 := by decide!

/-- The binary exponent brackets a positive rational between two powers of two. -/
theorem floorLog2_spec (x : ℚ) (hx : 0 < x) :
    pow2 (floorLog2 x) ≤ x ∧ x < pow2 (floorLog2 x + 1) := by
  have hnum : 0 < x.num := Rat.num_pos.2 hx
  have ha : 1 ≤ x.num.natAbs := by omega
  have hb : 1 ≤ x.den := x.den_pos
  obtain ⟨a1, a2⟩ := natLog2_spec x.num.natAbs x.num.natAbs (le_refl _) ha
  obtain ⟨b1, b2⟩ := natLog2_spec x.den x.den (le_refl _) hb
  have hxeq : x = (x.num.natAbs : ℚ) / (x.den : ℚ) := by
    have h2 : ((x.num.natAbs : ℚ)) = (x.num : ℚ) := by
      rw [Nat.cast_natAbs, abs_of_pos hnum]
    rw [h2]
    exact (Rat.num_div_den x).symm
  have hA : (0 : ℚ) < 2 ^ natLog2 x.num.natAbs x.num.natAbs := by positivity
  have hB : (0 : ℚ) < 2 ^ natLog2 x.den x.den := by positivity
  have hbq : (0 : ℚ) < x.den := by exact_mod_cast hb
  have a1q : (2 : ℚ) ^ natLog2 x.num.natAbs x.num.natAbs ≤ x.num.natAbs := by exact_mod_cast a1
  have a2q : (x.num.natAbs : ℚ) < 2 * 2 ^ natLog2 x.num.natAbs x.num.natAbs := by
    have : ((x.num.natAbs : ℚ)) < 2 ^ (natLog2 x.num.natAbs x.num.natAbs + 1) := by exact_mod_cast a2
    rw [pow_succ] at this
    linarith
  have b1q : (2 : ℚ) ^ natLog2 x.den x.den ≤ x.den := by exact_mod_cast b1
  have b2q : (x.den : ℚ) < 2 * 2 ^ natLog2 x.den x.den := by
    have : ((x.den : ℚ)) < 2 ^ (natLog2 x.den x.den + 1) := by exact_mod_cast b2
    rw [pow_succ] at this
    linarith
  have he0 : pow2 ((natLog2 x.num.natAbs x.num.natAbs : Int) - (natLog2 x.den x.den : Int)) =
      (2 : ℚ) ^ natLog2 x.num.natAbs x.num.natAbs / 2 ^ natLog2 x.den x.den := by
    rw [pow2_eq_zpow, zpow_sub₀ (by norm_num), zpow_natCast, zpow_natCast]
  unfold floorLog2
  simp only
  generalize hA' : (2 : ℚ) ^ natLog2 x.num.natAbs x.num.natAbs = A at *
  generalize hB' : (2 : ℚ) ^ natLog2 x.den x.den = B at *
  generalize (natLog2 x.num.natAbs x.num.natAbs : Int) - (natLog2 x.den x.den : Int) = e0 at *
  generalize hav : (x.num.natAbs : ℚ) = a at *
  generalize hbv : (x.den : ℚ) = b at *
  split_ifs with h
  · constructor
    · have : pow2 (e0 - 1) = A / B * (1 / 2) := by
        rw [show e0 - 1 = e0 + -1 by ring, pow2_add, he0, pow2_neg_one]
      rw [this, hxeq, div_mul_eq_mul_div, div_le_div_iff₀ hB hbq]
      nlinarith
    · rw [show e0 - 1 + 1 = e0 by ring]
      exact h
  · constructor
    · exact not_lt.1 h
    · have : pow2 (e0 + 1) = A / B * 2 := by rw [pow2_add, he0, pow2_one]
      rw [this, hxeq, div_mul_eq_mul_div, div_lt_div_iff₀ hbq hB]
      nlinarith

theorem floorLog2_mono (x y : ℚ) (hx : 0 < x) (h : x ≤ y) : floorLog2 x ≤ floorLog2 y := by
  have sx := floorLog2_spec x hx
  have sy := floorLog2_spec y (lt_of_lt_of_le hx h)
  have : pow2 (floorLog2 x) < pow2 (floorLog2 y + 1) := by linarith [sx.1, sy.2]
  have := (pow2_lt_pow2_iff _ _).1 this
  omega


theorem roundF32_zero : roundF32 0 = 0 := by
  unfold roundF32
  rw [if_pos rfl]

theorem roundF32_of_ne_zero (x : ℚ) (hx : x ≠ 0) :
    roundF32 x = (roundHalfEven (x / pow2 (max (floorLog2 |x|) (-126) - 23)) : ℚ) *
      pow2 (max (floorLog2 |x|) (-126) - 23) := by
  unfold roundF32
  rw [if_neg hx]

/-- The binary32 rounding commutes with negation. -/
theorem roundF32_neg (x : ℚ) : roundF32 (-x) = -roundF32 x := by
  by_cases hx : x = 0
  · rw [hx, neg_zero, roundF32_zero, neg_zero]
  · rw [roundF32_of_ne_zero x hx, roundF32_of_ne_zero (-x) (neg_ne_zero.2 hx), abs_neg, neg_div,
      roundHalfEven_neg]
    push_cast
    ring

theorem roundF32_nonneg (x : ℚ) (hx : 0 ≤ x) : 0 ≤ roundF32 x := by
  by_cases h0 : x = 0
  · rw [h0, roundF32_zero]
  · rw [roundF32_of_ne_zero x h0]
    have hq := pow2_pos (max (floorLog2 |x|) (-126) - 23)
    have h1 : 0 ≤ x / pow2 (max (floorLog2 |x|) (-126) - 23) := div_nonneg hx hq.le
    have h2 := roundHalfEven_mono 0 _ h1
    have h3 : roundHalfEven (0 : ℚ) = 0 := by
      have := roundHalfEven_intCast 0
      simpa using this
    rw [h3] at h2
    have h4 : (0 : ℚ) ≤ roundHalfEven (x / pow2 (max (floorLog2 |x|) (-126) - 23)) := by
      exact_mod_cast h2
    exact mul_nonneg h4 hq.le

theorem roundF32_nonpos (x : ℚ) (hx : x ≤ 0) : roundF32 x ≤ 0 := by
  have := roundF32_nonneg (-x) (by linarith)
  rw [roundF32_neg] at this
  linarith

theorem pow2_23 : pow2 23 = 8388608 := by decide!

theorem pow2_24 : pow2 24 = 16777216 := by decide!

/-- A positive value rounds to at most the next power of two above it. -/
theorem roundF32_le_pow2 (x : ℚ) (hx : 0 < x) :
    roundF32 x ≤ pow2 (max (floorLog2 x) (-126) + 1) := by
  rw [roundF32_of_ne_zero x hx.ne', abs_of_pos hx]
  generalize he : max (floorLog2 x) (-126) = e
  have hfl : floorLog2 x ≤ e := by rw [← he]; exact le_max_left _ _
  have hq := pow2_pos (e - 23)
  have hlt : x < pow2 (e + 1) :=
    lt_of_lt_of_le (floorLog2_spec x hx).2 (pow2_le_pow2 _ _ (by omega))
  have hsplit : pow2 (e + 1) = 16777216 * pow2 (e - 23) := by
    rw [← pow2_24, ← pow2_add]
    congr 1
    ring
  have h1 : x / pow2 (e - 23) ≤ ((16777216 : Int) : ℚ) := by
    rw [div_le_iff₀ hq]
    push_cast
    linarith
  have h2 := roundHalfEven_mono _ _ h1
  rw [roundHalfEven_intCast] at h2
  have h3 : (roundHalfEven (x / pow2 (e - 23)) : ℚ) ≤ 16777216 := by exact_mod_cast h2
  rw [hsplit]
  exact mul_le_mul_of_nonneg_right h3 hq.le

/-- A positive value whose exponent is in the normal range rounds to at least the power
of two below it. -/
theorem pow2_le_roundF32 (x : ℚ) (hx : 0 < x) (hnorm : -126 ≤ floorLog2 x) :
    pow2 (floorLog2 x) ≤ roundF32 x := by
  rw [roundF32_of_ne_zero x hx.ne', abs_of_pos hx, max_eq_left hnorm]
  have hq := pow2_pos (floorLog2 x - 23)
  have hge := (floorLog2_spec x hx).1
  have hsplit : pow2 (floorLog2 x) = 8388608 * pow2 (floorLog2 x - 23) := by
    rw [← pow2_23, ← pow2_add]
    congr 1
    ring
  have h1 : ((8388608 : Int) : ℚ) ≤ x / pow2 (floorLog2 x - 23) := by
    rw [le_div_iff₀ hq]
    push_cast
    linarith
  have h2 := roundHalfEven_mono _ _ h1
  rw [roundHalfEven_intCast] at h2
  have h3 : (8388608 : ℚ) ≤ roundHalfEven (x / pow2 (floorLog2 x - 23)) := by exact_mod_cast h2
  rw [hsplit]
  exact mul_le_mul_of_nonneg_right h3 hq.le

theorem roundF32_mono_pos (x y : ℚ) (hx : 0 < x) (h : x ≤ y) : roundF32 x ≤ roundF32 y := by
  have hy : 0 < y := lt_of_lt_of_le hx h
  have hfl := floorLog2_mono x y hx h
  rcases lt_or_eq_of_le (max_le_max hfl (le_refl (-126 : Int))) with hlt | heq
  · -- different exponents: a power of two lies between the two rounded values
    have hnorm : -126 < floorLog2 y := by
      by_contra hc
      rw [max_eq_right (not_lt.1 hc)] at hlt
      exact absurd (le_max_right (floorLog2 x) (-126)) (not_le.2 hlt)
    have hey : max (floorLog2 y) (-126) = floorLog2 y := max_eq_left hnorm.le
    rw [hey] at hlt
    calc roundF32 x ≤ pow2 (max (floorLog2 x) (-126) + 1) := roundF32_le_pow2 x hx
      _ ≤ pow2 (floorLog2 y) := pow2_le_pow2 _ _ (by omega)
      _ ≤ roundF32 y := pow2_le_roundF32 y hy hnorm.le
  · -- same exponent: the rounding to the nearest integer is monotone
    rw [roundF32_of_ne_zero x hx.ne', roundF32_of_ne_zero y hy.ne', abs_of_pos hx, abs_of_pos hy,
      heq]
    have hq := pow2_pos (max (floorLog2 y) (-126) - 23)
    have h1 : x / pow2 (max (floorLog2 y) (-126) - 23) ≤ y / pow2 (max (floorLog2 y) (-126) - 23) :=
      div_le_div_of_nonneg_right h hq.le
    have h2 := roundHalfEven_mono _ _ h1
    have h3 : (roundHalfEven (x / pow2 (max (floorLog2 y) (-126) - 23)) : ℚ) ≤
        roundHalfEven (y / pow2 (max (floorLog2 y) (-126) - 23)) := by exact_mod_cast h2
    exact mul_le_mul_of_nonneg_right h3 hq.le

/-- The binary32 rounding is monotone. -/
theorem roundF32_mono (x y : ℚ) (h : x ≤ y) : roundF32 x ≤ roundF32 y := by
  rcases lt_trichotomy 0 x with hx | hx | hx
  · exact roundF32_mono_pos x y hx h
  · rw [← hx, roundF32_zero]
    exact roundF32_nonneg y (by linarith)
  · rcases le_or_lt 0 y with hy | hy
    · exact le_trans (roundF32_nonpos x hx.le) (roundF32_nonneg y hy)
    · have := roundF32_mono_pos (-y) (-x) (by linarith) (by linarith)
      rw [roundF32_neg, roundF32_neg] at this
      linarith

theorem pow2_neg_24 : pow2 (-23) * (1 / 2) = 1 / 16777216 := by decide!

/-- Below 2 in magnitude the binary32 rounding moves a value by at most 2^-24. -/
theorem roundF32_error (x : ℚ) (hx : |x| < 2) : |roundF32 x - x| ≤ 1 / 16777216 := by
  by_cases h0 : x = 0
  · rw [h0, roundF32_zero]; norm_num
  · rw [roundF32_of_ne_zero x h0]
    have hpos : 0 < |x| := abs_pos.2 h0
    have hfl : floorLog2 |x| < 1 := by
      have h1 := (floorLog2_spec |x| hpos).1
      have h2 : pow2 (floorLog2 |x|) < pow2 1 := by rw [pow2_one]; linarith
      exact (pow2_lt_pow2_iff _ _).1 h2
    generalize he : max (floorLog2 |x|) (-126) = e
    have hele : e ≤ 0 := by rw [← he]; exact max_le (by omega) (by norm_num)
    have hq := pow2_pos (e - 23)
    have hqle : pow2 (e - 23) ≤ pow2 (-23) := pow2_le_pow2 _ _ (by omega)
    have hs := (roundHalfEven_spec (x / pow2 (e - 23))).1
    have e1 : (roundHalfEven (x / pow2 (e - 23)) : ℚ) * pow2 (e - 23) - x =
        -((x / pow2 (e - 23) - roundHalfEven (x / pow2 (e - 23))) * pow2 (e - 23)) := by
      field_simp
      ring
    rw [e1, abs_neg, abs_mul, abs_of_pos hq]
    calc |x / pow2 (e - 23) - roundHalfEven (x / pow2 (e - 23))| * pow2 (e - 23)
        ≤ 1 / 2 * pow2 (-23) := mul_le_mul hs hqle hq.le (by norm_num)
      _ = 1 / 16777216 := by rw [mul_comm, pow2_neg_24]


theorem InterpInputValueF32_unfold (r : FVehicleInputRate) (dt c n : ℚ) :
    r.InterpInputValueF32 dt c n =
      roundF32 (c + Clamp (roundF32 (n - c))
        (-roundF32 (dt * (if bRising (roundF32 (n - c)) c then r.RiseRate else r.FallRate)))
        (roundF32 (dt * (if bRising (roundF32 (n - c)) c then r.RiseRate else r.FallRate)))) :=
  rfl

theorem roundF32_values :
    roundF32 1 = 1 ∧ roundF32 (-1) = -1 ∧ roundF32 2 = 2 ∧ roundF32 (-2) = -2 ∧
      roundF32 (1 + 1 / 16777216) = 1 ∧ roundF32 (-1 - 1 / 16777216) = -1 := by
  refine ⟨?_, ?_, ?_, ?_, ?_, ?_⟩ <;> decide!

theorem roundF32_maxDelta_nonneg (r : FVehicleInputRate) (dt : ℚ) (b : Bool)
    (hdt : 0 ≤ dt) (hR : 0 ≤ r.RiseRate) (hF : 0 ≤ r.FallRate) :
    0 ≤ roundF32 (dt * (if b then r.RiseRate else r.FallRate)) :=
  roundF32_nonneg _ (maxDelta_nonneg r dt b hdt hR hF)

/-- On the binary32 code a step between values of at most 1 (the current one at least -1)
ends at most at 1. -/
theorem InterpInputValueF32_le_one (r : FVehicleInputRate) (dt c n : ℚ)
    (hdt : 0 ≤ dt) (hR : 0 ≤ r.RiseRate) (hF : 0 ≤ r.FallRate)
    (h1 : -1 ≤ c) (h2 : c ≤ 1) (h3 : n ≤ 1) : r.InterpInputValueF32 dt c n ≤ 1 := by
  rw [InterpInputValueF32_unfold]
  have hm := roundF32_maxDelta_nonneg r dt (bRising (roundF32 (n - c)) c) hdt hR hF
  generalize roundF32 (dt * (if bRising (roundF32 (n - c)) c then r.RiseRate else r.FallRate)) = m
    at hm
  have key : c + Clamp (roundF32 (n - c)) (-m) m ≤ 1 + 1 / 16777216 := by
    rcases le_total 0 (roundF32 (n - c)) with hD | hD
    · have hcl := (Clamp_nonneg_arg _ m hm hD).2
      have hmono := roundF32_mono (n - c) (1 - c) (by linarith)
      by_cases hz : 1 - c < 2
      · have herr := roundF32_error (1 - c) (by rw [abs_of_nonneg (by linarith)]; exact hz)
        have := (abs_le.1 herr).2
        linarith
      · have hc : c = -1 := by linarith
        rw [hc] at hmono hcl ⊢
        have h2' : roundF32 (1 - -1) = 2 := by
          rw [show (1 : ℚ) - -1 = 2 by norm_num]; exact roundF32_values.2.2.1
        rw [h2'] at hmono
        linarith
    · have hcl := (Clamp_nonpos_arg _ m hm hD).2
      linarith
  have := roundF32_mono _ _ key
  rw [roundF32_values.2.2.2.2.1] at this
  exact this

/-- On the binary32 code a step between values of at least -1 (the current one at most 1)
ends at least at -1. -/
theorem InterpInputValueF32_ge_neg_one (r : FVehicleInputRate) (dt c n : ℚ)
    (hdt : 0 ≤ dt) (hR : 0 ≤ r.RiseRate) (hF : 0 ≤ r.FallRate)
    (h1 : -1 ≤ c) (h2 : c ≤ 1) (h3 : -1 ≤ n) : -1 ≤ r.InterpInputValueF32 dt c n := by
  rw [InterpInputValueF32_unfold]
  have hm := roundF32_maxDelta_nonneg r dt (bRising (roundF32 (n - c)) c) hdt hR hF
  generalize roundF32 (dt * (if bRising (roundF32 (n - c)) c then r.RiseRate else r.FallRate)) = m
    at hm
  have key : -1 - 1 / 16777216 ≤ c + Clamp (roundF32 (n - c)) (-m) m := by
    rcases le_total 0 (roundF32 (n - c)) with hD | hD
    · have hcl := (Clamp_nonneg_arg _ m hm hD).1
      linarith
    · have hcl := (Clamp_nonpos_arg _ m hm hD).1
      have hmono := roundF32_mono (-1 - c) (n - c) (by linarith)
      by_cases hz : -2 < -1 - c
      · have herr := roundF32_error (-1 - c) (by rw [abs_of_nonpos (by linarith)]; linarith)
        have := (abs_le.1 herr).1
        linarith
      · have hc : c = 1 := by linarith
        rw [hc] at hmono hcl ⊢
        have h2' : roundF32 (-1 - 1) = -2 := by
          rw [show (-1 : ℚ) - 1 = -2 by norm_num]; exact roundF32_values.2.2.2.1
        rw [h2'] at hmono
        linarith
  have := roundF32_mono _ _ key
  rw [roundF32_values.2.2.2.2.2] at this
  exact this

/-- On the binary32 code a step from a binary32 value that is not negative toward a target
that is not negative ends at a value that is not negative. -/
theorem InterpInputValueF32_nonneg (r : FVehicleInputRate) (dt c n : ℚ)
    (hdt : 0 ≤ dt) (hR : 0 ≤ r.RiseRate) (hF : 0 ≤ r.FallRate)
    (hc : roundF32 c = c) (h1 : 0 ≤ c) (h3 : 0 ≤ n) : 0 ≤ r.InterpInputValueF32 dt c n := by
  rw [InterpInputValueF32_unfold]
  have hm := roundF32_maxDelta_nonneg r dt (bRising (roundF32 (n - c)) c) hdt hR hF
  generalize roundF32 (dt * (if bRising (roundF32 (n - c)) c then r.RiseRate else r.FallRate)) = m
    at hm
  apply roundF32_nonneg
  rcases le_total 0 (roundF32 (n - c)) with hD | hD
  · have hcl := (Clamp_nonneg_arg _ m hm hD).1
    linarith
  · have hcl := (Clamp_nonpos_arg _ m hm hD).1
    have hmono := roundF32_mono (-c) (n - c) (by linarith)
    rw [roundF32_neg, hc] at hmono
    linarith

/-- On the binary32 code a binary32 target is a fixed point of the step. -/
theorem InterpInputValueF32_fixed (r : FVehicleInputRate) (dt x : ℚ)
    (hdt : 0 ≤ dt) (hR : 0 ≤ r.RiseRate) (hF : 0 ≤ r.FallRate) (hx : roundF32 x = x) :
    r.InterpInputValueF32 dt x x = x := by
  rw [InterpInputValueF32_unfold, sub_self, roundF32_zero]
  have hm := roundF32_maxDelta_nonneg r dt (bRising 0 x) hdt hR hF
  generalize roundF32 (dt * (if bRising 0 x then r.RiseRate else r.FallRate)) = m at hm
  have h0 : Clamp 0 (-m) m = 0 := by
    have a := Clamp_nonneg_arg 0 m hm (le_refl _)
    linarith [a.1, a.2]
  rw [h0, add_zero, hx]

theorem smoothF32_fixed (r : FVehicleInputRate) (dt n : ℚ)
    (hfix : r.InterpInputValueF32 dt n n = n) (j : Nat) : r.smoothF32 dt n j n = n := by
  induction j with
  | zero => rfl
  | succ j ih =>
    show r.smoothF32 dt n j (r.InterpInputValueF32 dt n n) = n
    rw [hfix, ih]

/-- Where the three float operations of a call are exact, the binary32 body returns what
the exact reading of the body returns. -/
theorem InterpInputValueF32_of_stepExact (r : FVehicleInputRate) (dt c n : ℚ)
    (h : r.stepExactF32 dt c n) : r.InterpInputValueF32 dt c n = r.InterpInputValue dt c n :=
  InterpInputValueRnd_of_exact roundF32 r dt c n h.1 h.2.1 h.2.2

theorem smoothF32_add (r : FVehicleInputRate) (dt n : ℚ) (a b : Nat) (c : ℚ) :
    r.smoothF32 dt n (a + b) c = r.smoothF32 dt n b (r.smoothF32 dt n a c) := by
  induction a generalizing c with
  | zero => rw [Nat.zero_add]; rfl
  | succ a ih =>
    rw [Nat.succ_add]
    show r.smoothF32 dt n (a + b) (r.InterpInputValueF32 dt c n) = _
    rw [ih]
    rfl

/-- Where every float operation of a run of ticks is exact, the binary32 run ends where the
exact reading of the run ends. -/
theorem smoothF32_of_runExact (r : FVehicleInputRate) (dt n : ℚ) (k : Nat) (c : ℚ)
    (h : r.runExactF32 dt n k c) : r.smoothF32 dt n k c = r.smooth dt n k c := by
  induction k generalizing c with
  | zero => rfl
  | succ k ih =>
    show r.smoothF32 dt n k (r.InterpInputValueF32 dt c n) =
      r.smooth dt n k (r.InterpInputValue dt c n)
    rw [InterpInputValueF32_of_stepExact r dt c n h.1]
    exact ih _ h.2

/-! ## Input smoothing (claims C1 to C6) -/

/-- C1: for DeltaTime >= 0 and non-negative rates, InterpInputValue returns
CurrentValue + clamp(NewValue - CurrentValue, -DeltaTime*rate, +DeltaTime*rate),
where rate is one of the two rates, is RiseRate when the delta is non-zero and
CurrentValue is 0 or the delta has the sign of CurrentValue, and is FallRate
when the delta is non-zero and has the sign opposite to a non-zero CurrentValue. -/
theorem InterpInputValue_eq_clamped_step (r : FVehicleInputRate)
    (DeltaTime CurrentValue NewValue rate : ℚ)
    (hdt : 0 ≤ DeltaTime) (hR : 0 ≤ r.RiseRate) (hF : 0 ≤ r.FallRate)
    (hrate : rate = r.RiseRate ∨ rate = r.FallRate)
    (hrise : NewValue - CurrentValue ≠ 0 →
      (CurrentValue = 0 ∨ sgn (NewValue - CurrentValue) = sgn CurrentValue) → rate = r.RiseRate)
    (hfall : NewValue - CurrentValue ≠ 0 → CurrentValue ≠ 0 →
      sgn (NewValue - CurrentValue) = -sgn CurrentValue → rate = r.FallRate) :
    r.InterpInputValue DeltaTime CurrentValue NewValue =
      CurrentValue + specClamp (NewValue - CurrentValue) (-(DeltaTime * rate)) (DeltaTime * rate) := by
  rw [InterpInputValue_unfold]
  have hm := maxDelta_nonneg r DeltaTime (bRising (NewValue - CurrentValue) CurrentValue) hdt hR hF
  rw [Clamp_eq_specClamp _ _ hm]
  by_cases hd : NewValue - CurrentValue = 0
  · have hrate0 : 0 ≤ DeltaTime * rate := by
      rcases hrate with h | h <;> rw [h] <;> exact mul_nonneg hdt (by assumption)
    rw [hd] at hm ⊢
    rw [specClamp_zero _ hm, specClamp_zero _ hrate0]
  · by_cases hc : CurrentValue = 0
    · rw [bRising_of_same_sign _ _ hd (Or.inl hc), hrise hd (Or.inl hc)]
      simp
    · rcases sgn_cases (NewValue - CurrentValue) with ⟨_, h2⟩ | ⟨_, h2⟩ | ⟨h1, _⟩
      · rcases sgn_cases CurrentValue with ⟨_, h4⟩ | ⟨_, h4⟩ | ⟨h3, _⟩
        · have hs : sgn (NewValue - CurrentValue) = sgn CurrentValue := by rw [h2, h4]
          rw [bRising_of_same_sign _ _ hd (Or.inr hs), hrise hd (Or.inr hs)]
          simp
        · have hs : sgn (NewValue - CurrentValue) = -sgn CurrentValue := by rw [h2, h4]; rfl
          rw [bRising_of_opposite_sign _ _ hd hc hs, hfall hd hc hs]
          simp
        · exact absurd h3 hc
      · rcases sgn_cases CurrentValue with ⟨_, h4⟩ | ⟨_, h4⟩ | ⟨h3, _⟩
        · have hs : sgn (NewValue - CurrentValue) = -sgn CurrentValue := by rw [h2, h4]
          rw [bRising_of_opposite_sign _ _ hd hc hs, hfall hd hc hs]
          simp
        · have hs : sgn (NewValue - CurrentValue) = sgn CurrentValue := by rw [h2, h4]
          rw [bRising_of_same_sign _ _ hd (Or.inr hs), hrise hd (Or.inr hs)]
          simp
        · exact absurd h3 hc
      · exact absurd h1 hd

/-- C5: when CurrentValue = 0 or the delta has the sign of CurrentValue, two calls that
differ only in FallRate return the same result; when CurrentValue != 0 and the
delta is non-zero with the opposite sign, two calls that differ only in RiseRate
return the same result. This holds for every DeltaTime and every rate. -/
theorem InterpInputValue_rates_independent (DeltaTime CurrentValue NewValue : ℚ) :
    ((CurrentValue = 0 ∨ sgn (NewValue - CurrentValue) = sgn CurrentValue) →
      ∀ RiseRate FallRate1 FallRate2 : ℚ,
        (FVehicleInputRate.mk RiseRate FallRate1).InterpInputValue DeltaTime CurrentValue NewValue =
        (FVehicleInputRate.mk RiseRate FallRate2).InterpInputValue DeltaTime CurrentValue NewValue) ∧
    (CurrentValue ≠ 0 → NewValue - CurrentValue ≠ 0 →
      sgn (NewValue - CurrentValue) = -sgn CurrentValue →
      ∀ RiseRate1 RiseRate2 FallRate : ℚ,
        (FVehicleInputRate.mk RiseRate1 FallRate).InterpInputValue DeltaTime CurrentValue NewValue =
        (FVehicleInputRate.mk RiseRate2 FallRate).InterpInputValue DeltaTime CurrentValue NewValue) := by
  constructor
  · intro h R F1 F2
    have hb : bRising (NewValue - CurrentValue) CurrentValue = true := by
      by_cases hd : NewValue - CurrentValue = 0
      · rw [bRising_eq_true_iff, hd]
        left
        rcases h with h | h
        · rw [h]
        · rw [hd] at h
          have : CurrentValue = 0 := (sgn_zero_iff _).1 (by rw [← h]; exact (sgn_zero_iff 0).2 rfl)
          rw [this]
      · exact bRising_of_same_sign _ _ hd h
    simp only [InterpInputValue_unfold, hb, if_true]
  · intro hc hd h R1 R2 F
    have hb := bRising_of_opposite_sign _ _ hd hc h
    simp only [InterpInputValue_unfold, hb]
    rfl

/-- C6 (as amended): for DeltaTime >= 0 and non-negative rates, a steering value stays in
[-1, 1] and a throttle, brake or handbrake value stays in [0, 1] as long as the raw target
does, on the binary32 body as well as over exact arithmetic; for a general interval
[lo, hi] holding CurrentValue and NewValue the result of InterpInputValue stays in [lo, hi]
where the float operations of the step incur no rounding (over exact arithmetic, and for the
binary32 body at every input at which its subtraction, product and sum are exact). -/
theorem InterpInputValue_preserves_range (r : FVehicleInputRate) (DeltaTime : ℚ)
    (hdt : 0 ≤ DeltaTime) (hR : 0 ≤ r.RiseRate) (hF : 0 ≤ r.FallRate) :
    (∀ lo hi CurrentValue NewValue : ℚ, lo ≤ hi →
        lo ≤ CurrentValue → CurrentValue ≤ hi → lo ≤ NewValue → NewValue ≤ hi →
        lo ≤ r.InterpInputValue DeltaTime CurrentValue NewValue ∧
          r.InterpInputValue DeltaTime CurrentValue NewValue ≤ hi) ∧
    (∀ SteeringInput RawSteeringInput : ℚ,
        -1 ≤ SteeringInput → SteeringInput ≤ 1 → -1 ≤ RawSteeringInput → RawSteeringInput ≤ 1 →
        -1 ≤ r.InterpInputValue DeltaTime SteeringInput RawSteeringInput ∧
          r.InterpInputValue DeltaTime SteeringInput RawSteeringInput ≤ 1) ∧
    (∀ Input RawInput : ℚ,
        0 ≤ Input → Input ≤ 1 → 0 ≤ RawInput → RawInput ≤ 1 →
        0 ≤ r.InterpInputValue DeltaTime Input RawInput ∧
          r.InterpInputValue DeltaTime Input RawInput ≤ 1) ∧
    (∀ lo hi CurrentValue NewValue : ℚ, lo ≤ hi →
        lo ≤ CurrentValue → CurrentValue ≤ hi → lo ≤ NewValue → NewValue ≤ hi →
        r.stepExactF32 DeltaTime CurrentValue NewValue →
        lo ≤ r.InterpInputValueF32 DeltaTime CurrentValue NewValue ∧
          r.InterpInputValueF32 DeltaTime CurrentValue NewValue ≤ hi) ∧
    (∀ SteeringInput RawSteeringInput : ℚ,
        -1 ≤ SteeringInput → SteeringInput ≤ 1 → -1 ≤ RawSteeringInput → RawSteeringInput ≤ 1 →
        -1 ≤ r.InterpInputValueF32 DeltaTime SteeringInput RawSteeringInput ∧
          r.InterpInputValueF32 DeltaTime SteeringInput RawSteeringInput ≤ 1) ∧
    (∀ Input RawInput : ℚ, roundF32 Input = Input →
        0 ≤ Input → Input ≤ 1 → 0 ≤ RawInput → RawInput ≤ 1 →
        0 ≤ r.InterpInputValueF32 DeltaTime Input RawInput ∧
          r.InterpInputValueF32 DeltaTime Input RawInput ≤ 1) := by
  have key : ∀ lo hi c n : ℚ, lo ≤ c → c ≤ hi → lo ≤ n → n ≤ hi →
      lo ≤ r.InterpInputValue DeltaTime c n ∧ r.InterpInputValue DeltaTime c n ≤ hi := by
    intro lo hi c n h1 h2 h3 h4
    have hb := InterpInputValue_between r DeltaTime c n hdt hR hF
    exact ⟨le_trans (le_min h1 h3) hb.1, le_trans hb.2 (max_le h2 h4)⟩
  refine ⟨fun lo hi c n _ => key lo hi c n, fun c n => key (-1) 1 c n, fun c n => key 0 1 c n,
    fun lo hi c n _ h1 h2 h3 h4 h => ?_, fun c n h1 h2 h3 h4 => ?_, fun c n hc h1 h2 h3 h4 => ?_⟩
  · rw [InterpInputValueF32_of_stepExact r DeltaTime c n h]
    exact key lo hi c n h1 h2 h3 h4
  · exact ⟨InterpInputValueF32_ge_neg_one r DeltaTime c n hdt hR hF h1 h2 h3,
      InterpInputValueF32_le_one r DeltaTime c n hdt hR hF h1 h2 h4⟩
  · exact ⟨InterpInputValueF32_nonneg r DeltaTime c n hdt hR hF hc h1 h3,
      InterpInputValueF32_le_one r DeltaTime c n hdt hR hF (by linarith) h2 h4⟩

theorem InterpInputValue_eq_clamped_step_witness :
    (FVehicleInputRate.mk 5 3).InterpInputValue (1 / 10) 0 1 =
      0 + specClamp (1 - 0) (-(1 / 10 * 5)) (1 / 10 * 5) :=
  InterpInputValue_eq_clamped_step ⟨5, 3⟩ (1 / 10) 0 1 5 (by norm_num) (by norm_num) (by norm_num)
    (Or.inl rfl) (fun _ _ => rfl) (fun _ h => absurd rfl h)

theorem InterpInputValue_rates_independent_witness :
    (FVehicleInputRate.mk 5 1).InterpInputValue (1 / 10) 0 1 =
      (FVehicleInputRate.mk 5 2).InterpInputValue (1 / 10) 0 1 :=
  (InterpInputValue_rates_independent (1 / 10) 0 1).1 (Or.inl rfl) 5 1 2

theorem InterpInputValue_preserves_range_witness :
    ((-1 : ℚ) ≤ (FVehicleInputRate.mk 5 3).InterpInputValue (1 / 10) (1 / 2) (-1) ∧
      (FVehicleInputRate.mk 5 3).InterpInputValue (1 / 10) (1 / 2) (-1) ≤ 1) ∧
    ((-1 : ℚ) ≤ (FVehicleInputRate.mk 5 3).InterpInputValueF32 f32_tenth (1 / 2) (-1) ∧
      (FVehicleInputRate.mk 5 3).InterpInputValueF32 f32_tenth (1 / 2) (-1) ≤ 1) :=
  ⟨(InterpInputValue_preserves_range ⟨5, 3⟩ (1 / 10) (by norm_num) (by norm_num)
      (by norm_num)).2.1 (1 / 2) (-1) (by norm_num) (by norm_num) (by norm_num) (by norm_num),
    (InterpInputValue_preserves_range ⟨5, 3⟩ f32_tenth (by norm_num [f32_tenth]) (by norm_num)
      (by norm_num)).2.2.2.2.1 (1 / 2) (-1) (by norm_num) (by norm_num) (by norm_num)
      (by norm_num)⟩

/-! ## Substep selection (claim C7) -/

/-- C7: a vehicle whose longitudinal speed magnitude is below ThresholdLongitudinalSpeed is
simulated with LowForwardSpeedSubStepCount substeps, and one whose speed (magnitude,
hence also a signed speed) is above the threshold with HighForwardSpeedSubStepCount. -/
theorem subStepCount_selection (v : UWheeledVehicleMovementComponent) (longitudinalSpeed : ℚ) :
    (|longitudinalSpeed| < v.ThresholdLongitudinalSpeed →
        subStepCount v longitudinalSpeed = v.LowForwardSpeedSubStepCount) ∧
    (v.ThresholdLongitudinalSpeed < |longitudinalSpeed| →
        subStepCount v longitudinalSpeed = v.HighForwardSpeedSubStepCount) ∧
    (v.ThresholdLongitudinalSpeed < longitudinalSpeed →
        subStepCount v longitudinalSpeed = v.HighForwardSpeedSubStepCount) := by
  unfold subStepCount
  refine ⟨fun h => if_pos h, fun h => if_neg (not_lt.2 h.le), fun h => if_neg (not_lt.2 ?_)⟩
  exact le_trans h.le (le_abs_self _)

theorem subStepCount_selection_witness :
    subStepCount ⟨0, 0, 2, 2, 5, 3, 1⟩ 2 = 3 ∧ subStepCount ⟨0, 0, 2, 2, 5, 3, 1⟩ (-8) = 1 :=
  ⟨(subStepCount_selection ⟨0, 0, 2, 2, 5, 3, 1⟩ 2).1 (by norm_num [abs_of_pos]),
   (subStepCount_selection ⟨0, 0, 2, 2, 5, 3, 1⟩ (-8)).2.1 (by norm_num [abs_of_neg])⟩

/-! ## Raycast-batch sizing (claim C8) -/

/-- C8: when the total wheel count exceeds the current batch capacity, SetUpBatchedSceneQuery
does exactly one reallocation (a second call does none) and the new capacity is the
total wheel count; when the total does not exceed the capacity, the call changes
nothing, so no reallocation happens; the capacity never shrinks. -/
theorem SetUpBatchedSceneQuery_sizing (m : FPhysXVehicleManager) :
    (m.NumWheels > m.capacity →
        m.SetUpBatchedSceneQuery.Reallocations = m.Reallocations + 1 ∧
        m.SetUpBatchedSceneQuery.capacity = m.NumWheels ∧
        m.SetUpBatchedSceneQuery.WheelHitResults = m.NumWheels ∧
        m.SetUpBatchedSceneQuery.SetUpBatchedSceneQuery.Reallocations = m.Reallocations + 1) ∧
    (m.NumWheels ≤ m.capacity → m.SetUpBatchedSceneQuery = m) ∧
    m.capacity ≤ m.SetUpBatchedSceneQuery.capacity ∧
    m.SetUpBatchedSceneQuery.capacity = max m.capacity m.NumWheels ∧
    m.SetUpBatchedSceneQuery.NumWheels = m.NumWheels := by
  by_cases h : m.NumWheels > m.capacity
  · have e1 := SetUpBatchedSceneQuery_of_gt m h
    have hle : (FPhysXVehicleManager.mk m.PVehicles m.NumWheels m.NumWheels (some m.NumWheels)
        (m.Reallocations + 1)).NumWheels ≤ (FPhysXVehicleManager.mk m.PVehicles m.NumWheels
        m.NumWheels (some m.NumWheels) (m.Reallocations + 1)).capacity := le_refl _
    have e2 := SetUpBatchedSceneQuery_of_le _ hle
    rw [e1]
    refine ⟨fun _ => ⟨rfl, rfl, rfl, ?_⟩, fun h2 => absurd h (not_lt.2 h2), ?_, ?_, rfl⟩
    · rw [e2]
    · exact le_of_lt h
    · exact (max_eq_right (le_of_lt h)).symm
  · have e1 := SetUpBatchedSceneQuery_of_le m (not_lt.1 h)
    rw [e1]
    exact ⟨fun h2 => absurd h2 h, fun _ => rfl, le_refl _, (max_eq_left (not_lt.1 h)).symm, rfl⟩

theorem SetUpBatchedSceneQuery_sizing_witness :
    ((FPhysXVehicleManager.mk [4] 4 4 (some 4) 1).AddVehicle 6).SetUpBatchedSceneQuery.Reallocations
        = 1 + 1 ∧
    ((FPhysXVehicleManager.mk [4] 4 4 (some 4) 1).AddVehicle 6).SetUpBatchedSceneQuery.capacity
        = ((FPhysXVehicleManager.mk [4] 4 4 (some 4) 1).AddVehicle 6).NumWheels :=
  ⟨((SetUpBatchedSceneQuery_sizing ((FPhysXVehicleManager.mk [4] 4 4 (some 4) 1).AddVehicle 6)).1
      (by decide)).1,
   ((SetUpBatchedSceneQuery_sizing ((FPhysXVehicleManager.mk [4] 4 4 (some 4) 1).AddVehicle 6)).1
      (by decide)).2.1⟩

/-! ## Normalized tire load (claim C10) -/

/-- C10: with MinNormalizedTireLoad <= MaxNormalizedTireLoad, for every tire load the
normalized load used lies in [MinNormalizedTireLoad, MaxNormalizedTireLoad]; a load
whose normalized value is below the minimum is replaced by MinNormalizedTireLoad
and one above the maximum by MaxNormalizedTireLoad. -/
theorem usedNormalizedTireLoad_clamped (v : UWheeledVehicleMovementComponent)
    (RestTireLoad TireLoad : ℚ) (hrange : v.MinNormalizedTireLoad ≤ v.MaxNormalizedTireLoad) :
    (v.MinNormalizedTireLoad ≤ usedNormalizedTireLoad v RestTireLoad TireLoad ∧
      usedNormalizedTireLoad v RestTireLoad TireLoad ≤ v.MaxNormalizedTireLoad) ∧
    (rawNormalizedTireLoad RestTireLoad TireLoad < v.MinNormalizedTireLoad →
      usedNormalizedTireLoad v RestTireLoad TireLoad = v.MinNormalizedTireLoad) ∧
    (v.MaxNormalizedTireLoad < rawNormalizedTireLoad RestTireLoad TireLoad →
      usedNormalizedTireLoad v RestTireLoad TireLoad = v.MaxNormalizedTireLoad) := by
  unfold usedNormalizedTireLoad Clamp
  generalize rawNormalizedTireLoad RestTireLoad TireLoad = x
  refine ⟨?_, fun h => if_pos h, fun h => ?_⟩
  · split_ifs with h1 h2 <;> constructor <;> linarith
  · rw [if_neg (by linarith), if_neg (by linarith)]

theorem usedNormalizedTireLoad_clamped_witness :
    usedNormalizedTireLoad ⟨1 / 2, 0, 2, 2, 5, 3, 1⟩ 100 300 = 2 :=
  (usedNormalizedTireLoad_clamped ⟨1 / 2, 0, 2, 2, 5, 3, 1⟩ 100 300 (by norm_num)).2.2
    (by norm_num [rawNormalizedTireLoad])

/-! ## Drivetrain (claims C11 and C12) -/

/-- C11: for an Open_4W differential and no wheel slipping, a total drive torque T is split
into FrontRearSplit*T for the front axle and (1 - FrontRearSplit)*T for the rear
axle, the two shares sum to T, and with FrontRearSplit = 0.6 they are 0.6*T and 0.4*T. -/
theorem frontRearTorque_open_4W (d : FVehicleDifferential4WData) (T : ℚ)
    (htype : d.DifferentialType = EVehicleDifferential4W.Open_4W) :
    (frontRearTorque d T).1 = d.FrontRearSplit * T ∧
    (frontRearTorque d T).2 = (1 - d.FrontRearSplit) * T ∧
    (frontRearTorque d T).1 + (frontRearTorque d T).2 = T ∧
    (d.FrontRearSplit = 6 / 10 →
      (frontRearTorque d T).1 = 6 / 10 * T ∧ (frontRearTorque d T).2 = 4 / 10 * T) := by
  unfold frontRearTorque
  rw [htype]
  refine ⟨rfl, ?_, ?_, fun h => ⟨?_, ?_⟩⟩
  · show T - d.FrontRearSplit * T = _
    ring
  · show d.FrontRearSplit * T + (T - d.FrontRearSplit * T) = T
    ring
  · show d.FrontRearSplit * T = _
    rw [h]
  · show T - d.FrontRearSplit * T = _
    rw [h]
    ring

theorem frontRearTorque_open_4W_witness :
    (frontRearTorque ⟨.Open_4W, 6 / 10, 1 / 2, 1 / 2, 1, 1, 1⟩ 500).1 = 6 / 10 * 500 ∧
    (frontRearTorque ⟨.Open_4W, 6 / 10, 1 / 2, 1 / 2, 1, 1, 1⟩ 500).2 = 4 / 10 * 500 :=
  (frontRearTorque_open_4W ⟨.Open_4W, 6 / 10, 1 / 2, 1 / 2, 1, 1, 1⟩ 500 rfl).2.2.2 rfl

/-- C12 (as amended): in automatic mode (bUseGearAutoBox), for a forward gear below the top
gear, take a run made of steps that start while the latency since the last gear
change has not passed (any ratio), then, the latency having passed, steps with
engineRPM/MaxRPM strictly between the DownRatio and the UpRatio of the gear, then one
step with engineRPM/MaxRPM at or above the UpRatio, then steps that start less than
GearAutoBoxLatency seconds after that step (any ratio, also at or below the
DownRatio). Over the whole run exactly one upshift and no downshift occurs: the gear
is kept up to the crossing step, which shifts up by one gear, and is kept after it. -/
theorem autoBox_hysteresis (t : FVehicleTransmissionData) (s : GearState) (g : FVehicleGearData)
    (wait pre post : List (ℚ × ℚ)) (cross : ℚ × ℚ)
    (hauto : t.bUseGearAutoBox = true)
    (hgear : forwardGearData t s.CurrentGear = some g)
    (hhigher : s.CurrentGear < t.ForwardGears.length)
    (hwait : startWithinLatency t.GearAutoBoxLatency s.GearChangeTimer wait)
    (hready : t.GearAutoBoxLatency ≤ s.GearChangeTimer + (wait.map Prod.fst).sum)
    (hpre : ∀ i ∈ pre, 0 ≤ i.1 ∧ g.DownRatio < i.2 ∧ i.2 < g.UpRatio)
    (hcross : g.UpRatio ≤ cross.2)
    (hpost : startWithinLatency t.GearAutoBoxLatency 0 post) :
    autoBoxUpshifts t s (wait ++ pre ++ cross :: post) = 1 ∧
    autoBoxDownshifts t s (wait ++ pre ++ cross :: post) = 0 ∧
    (autoBoxRun t s (wait ++ pre)).CurrentGear = s.CurrentGear ∧
    autoBoxRun t s (wait ++ pre ++ [cross]) = ⟨s.CurrentGear + 1, 0⟩ ∧
    (autoBoxRun t s (wait ++ pre ++ cross :: post)).CurrentGear = s.CurrentGear + 1 := by
  obtain ⟨r1, u1, d1⟩ := autoBoxRun_waiting t wait s hwait
  obtain ⟨r2, hs2, u2, d2⟩ := autoBoxRun_between t g pre
    ⟨s.CurrentGear, s.GearChangeTimer + (wait.map Prod.fst).sum⟩ hgear hpre
  have r12 : autoBoxRun t s (wait ++ pre) =
      ⟨s.CurrentGear, s.GearChangeTimer + (wait.map Prod.fst).sum + (pre.map Prod.fst).sum⟩ := by
    rw [autoBoxRun_append, r1, r2]
  have hstep : autoBoxStep t
      ⟨s.CurrentGear, s.GearChangeTimer + (wait.map Prod.fst).sum + (pre.map Prod.fst).sum⟩
      cross.1 cross.2 = ⟨s.CurrentGear + 1, 0⟩ := by
    unfold autoBoxStep
    rw [if_neg (by simp [hauto]), if_neg (not_lt.2 (by simp only; linarith)), hgear]
    simp only
    rw [if_pos ⟨hcross, hhigher⟩]
  obtain ⟨r3, u3, d3⟩ := autoBoxRun_waiting t post ⟨s.CurrentGear + 1, 0⟩ hpost
  have hu : autoBoxUpshifts t
      ⟨s.CurrentGear, s.GearChangeTimer + (wait.map Prod.fst).sum + (pre.map Prod.fst).sum⟩
      (cross :: post) = 1 := by
    show (if _ then 1 else 0) + _ = 1
    rw [hstep, u3, if_pos (by simp only; omega)]
  have hd : autoBoxDownshifts t
      ⟨s.CurrentGear, s.GearChangeTimer + (wait.map Prod.fst).sum + (pre.map Prod.fst).sum⟩
      (cross :: post) = 0 := by
    show (if _ then 1 else 0) + _ = 0
    rw [hstep, d3, if_neg (by simp only; omega)]
  refine ⟨?_, ?_, ?_, ?_, ?_⟩
  · rw [autoBoxUpshifts_append, r12, hu, autoBoxUpshifts_append, u1, r1, u2]
  · rw [autoBoxDownshifts_append, r12, hd, autoBoxDownshifts_append, d1, r1, d2]
  · rw [r12]
  · rw [autoBoxRun_append, r12, autoBoxRun_cons, hstep]
    rfl
  · rw [autoBoxRun_append, r12, autoBoxRun_cons, hstep, r3]

theorem autoBox_hysteresis_witness :
    autoBoxUpshifts sampleTransmission ⟨1, 1⟩
      ([(1 / 2, 6 / 10), (1 / 2, 6 / 10)] ++ [(1, 6 / 10)] ++
        (1, 7 / 10) :: [(1, 8 / 10), (1 / 2, 1 / 10)]) = 1 ∧
    autoBoxDownshifts sampleTransmission ⟨1, 1⟩
      ([(1 / 2, 6 / 10), (1 / 2, 6 / 10)] ++ [(1, 6 / 10)] ++
        (1, 7 / 10) :: [(1, 8 / 10), (1 / 2, 1 / 10)]) = 0 :=
  ⟨(autoBox_hysteresis sampleTransmission ⟨1, 1⟩ ⟨4, 0, 13 / 20⟩
      [(1 / 2, 6 / 10), (1 / 2, 6 / 10)] [(1, 6 / 10)] [(1, 8 / 10), (1 / 2, 1 / 10)] (1, 7 / 10)
      rfl rfl (by decide)
      (by norm_num [startWithinLatency, sampleTransmission])
      (by norm_num [sampleTransmission])
      (by intro i hi; simp at hi; subst hi; norm_num)
      (by norm_num)
      (by norm_num [startWithinLatency, sampleTransmission])).1,
   (autoBox_hysteresis sampleTransmission ⟨1, 1⟩ ⟨4, 0, 13 / 20⟩
      [(1 / 2, 6 / 10), (1 / 2, 6 / 10)] [(1, 6 / 10)] [(1, 8 / 10), (1 / 2, 1 / 10)] (1, 7 / 10)
      rfl rfl (by decide)
      (by norm_num [startWithinLatency, sampleTransmission])
      (by norm_num [sampleTransmission])
      (by intro i hi; simp at hi; subst hi; norm_num)
      (by norm_num)
      (by norm_num [startWithinLatency, sampleTransmission])).2.1⟩

/-- Counterexample to claim C12 as stated, on the gearbox model: in automatic mode, with
engineRPM/MaxRPM rising monotonically across the UpRatio 0.65 of the current forward
gear, the number of upshifts is not always one. From gear 1 with the latency passed
the ratios 0.6, 0.7, 0.7, 0.8, 0.8 at one-second steps give two upshifts (the second
once the latency of 2 seconds has passed again); from gear 1 right after a gear
change the ratios 0.6, 0.7, 0.8 at half-second steps give none; from the top gear 3
the ratios 0.6, 0.7, 0.8 give none. -/
theorem autoBox_upshifts_not_one :
    sampleTransmission.bUseGearAutoBox = true ∧
    autoBoxUpshifts sampleTransmission ⟨1, 2⟩
      [(1, 6 / 10), (1, 7 / 10), (1, 7 / 10), (1, 8 / 10), (1, 8 / 10)] = 2 ∧
    autoBoxUpshifts sampleTransmission ⟨1, 0⟩
      [(1 / 2, 6 / 10), (1 / 2, 7 / 10), (1 / 2, 8 / 10)] = 0 ∧
    autoBoxUpshifts sampleTransmission ⟨3, 2⟩ [(1, 6 / 10), (1, 7 / 10), (1, 8 / 10)] = 0 := by
  refine ⟨rfl, ?_, ?_, ?_⟩ <;> decide!

/-! ## Unit conversions (claims C13 to C16) -/

/-- C13: over exact arithmetic RPMToOmega and OmegaToRPM are mutual inverses: for every x,
OmegaToRPM(RPMToOmega(x)) = x and RPMToOmega(OmegaToRPM(x)) = x (PI is any non-zero
constant, in particular the number pi). -/
theorem RPMToOmega_OmegaToRPM_inverse {K : Type} [LinearOrderedField K] (PI : K)
    (hPI : PI ≠ 0) (x : K) :
    OmegaToRPM PI (RPMToOmega PI x) = x ∧ RPMToOmega PI (OmegaToRPM PI x) = x := by
  unfold OmegaToRPM RPMToOmega
  constructor <;> field_simp

theorem RPMToOmega_OmegaToRPM_inverse_witness :
    OmegaToRPM (355 / 113 : ℚ) (RPMToOmega (355 / 113) 6000) = 6000 ∧
      RPMToOmega (355 / 113 : ℚ) (OmegaToRPM (355 / 113) 6000) = 6000 :=
  RPMToOmega_OmegaToRPM_inverse (355 / 113 : ℚ) (by norm_num) 6000

/-- C14: RPMToOmega converts revolutions per minute to radians per second: for every RPM,
RPMToOmega(RPM) = RPM * 2*pi / 60, so RPMToOmega(60) = 2*pi and RPMToOmega(0) = 0. -/
theorem RPMToOmega_eq {K : Type} [LinearOrderedField K] (PI RPM : K) :
    RPMToOmega PI RPM = RPM * (2 * PI) / 60 ∧
      RPMToOmega PI 60 = 2 * PI ∧
      RPMToOmega PI 0 = 0 := by
  unfold RPMToOmega
  refine ⟨?_, ?_, ?_⟩
  · field_simp; ring
  · field_simp; ring
  · simp

/-- C15: KmHToCmS converts km/h to cm/s, KmHToCmS(x) = x * 100000 / 3600 (so KmHToCmS(36) =
1000), and CmSToKmH is its inverse over exact arithmetic, in both orders. -/
theorem KmHToCmS_CmSToKmH_inverse {K : Type} [LinearOrderedField K] (x : K) :
    KmHToCmS x = x * 100000 / 3600 ∧
      KmHToCmS (36 : K) = 1000 ∧
      CmSToKmH (KmHToCmS x) = x ∧
      KmHToCmS (CmSToKmH x) = x := by
  unfold KmHToCmS CmSToKmH
  refine ⟨rfl, ?_, ?_, ?_⟩
  · norm_num
  · field_simp
  · field_simp

/-- C16: M2ToCm2 and Cm2ToM2 are mutual inverses over exact arithmetic with scale factor
10000: M2ToCm2(x) = 10000 * x, Cm2ToM2(M2ToCm2(x)) = x and M2ToCm2(Cm2ToM2(x)) = x. -/
theorem M2ToCm2_Cm2ToM2_inverse {K : Type} [LinearOrderedField K] (x : K) :
    M2ToCm2 x = 10000 * x ∧
      Cm2ToM2 (M2ToCm2 x) = x ∧
      M2ToCm2 (Cm2ToM2 x) = x := by
  unfold M2ToCm2 Cm2ToM2
  refine ⟨?_, ?_, ?_⟩
  · ring
  · field_simp; ring
  · field_simp; ring

/-! ## Input smoothing (claims C18 to C20) -/

/-- C19: for DeltaTime >= 0 and RiseRate >= 0, whenever bRising is true in InterpInputValue
(DeltaValue > 0 exactly when CurrentValue > 0, or DeltaValue != 0 and CurrentValue
== 0), the result satisfies |result| >= |CurrentValue|. -/
theorem InterpInputValue_rising_gain (r : FVehicleInputRate) (DeltaTime CurrentValue NewValue : ℚ)
    (hdt : 0 ≤ DeltaTime) (hR : 0 ≤ r.RiseRate) :
    (bRising (NewValue - CurrentValue) CurrentValue = true ↔
      ((0 < NewValue - CurrentValue ↔ 0 < CurrentValue) ∨
        (NewValue - CurrentValue ≠ 0 ∧ CurrentValue = 0))) ∧
    (bRising (NewValue - CurrentValue) CurrentValue = true →
      |CurrentValue| ≤ |r.InterpInputValue DeltaTime CurrentValue NewValue|) := by
  refine ⟨bRising_eq_true_iff _ _, fun hb => ?_⟩
  rw [InterpInputValue_unfold, hb]
  simp only [if_true]
  have hm : 0 ≤ DeltaTime * r.RiseRate := mul_nonneg hdt hR
  rcases (bRising_eq_true_iff _ _).1 hb with h | ⟨_, h⟩
  · rcases lt_or_le 0 CurrentValue with hc | hc
    · have hd := h.2 hc
      have hcl := Clamp_nonneg_arg (NewValue - CurrentValue) _ hm hd.le
      rw [abs_of_pos hc, abs_of_nonneg (by linarith [hcl.1])]
      linarith [hcl.1]
    · have hd : NewValue - CurrentValue ≤ 0 := not_lt.1 (fun h0 => not_lt.2 hc (h.1 h0))
      have hcl := Clamp_nonpos_arg (NewValue - CurrentValue) _ hm hd
      rw [abs_of_nonpos hc, abs_of_nonpos (by linarith [hcl.2])]
      linarith [hcl.2]
  · rw [h, abs_zero]
    exact abs_nonneg _

theorem InterpInputValue_rising_gain_witness :
    |(-1 / 2 : ℚ)| ≤ |(FVehicleInputRate.mk 5 3).InterpInputValue (1 / 10) (-1 / 2) (-1)| :=
  (InterpInputValue_rising_gain ⟨5, 3⟩ (1 / 10) (-1 / 2) (-1) (by norm_num) (by norm_num)).2
    (by rw [bRising_eq_true_iff]; norm_num)

/-- C20 (as amended): where the float operations of the steps incur no rounding, for
DeltaTime = dt > 0, strictly positive rates and every natural number N with
N * dt * min(RiseRate, FallRate) >= |NewValue - CurrentValue|, applying
x -> InterpInputValue(dt, x, NewValue) N times from CurrentValue yields exactly
NewValue, and every further application also yields NewValue. First over exact arithmetic,
then for the binary32 body on every run whose first N steps are exact toward a binary32
NewValue. With rounding, what remains is the second half: a value that has reached a
binary32 NewValue stays there. -/
theorem InterpInputValue_reaches_target (r : FVehicleInputRate) (dt CurrentValue NewValue : ℚ)
    (N : Nat) (hdt : 0 < dt) (hR : 0 < r.RiseRate) (hF : 0 < r.FallRate)
    (hN : |NewValue - CurrentValue| ≤ N * dt * min r.RiseRate r.FallRate) :
    (fun x => r.InterpInputValue dt x NewValue)^[N] CurrentValue = NewValue ∧
    r.smooth dt NewValue N CurrentValue = NewValue ∧
    (∀ j : Nat, (fun x => r.InterpInputValue dt x NewValue)^[N + j] CurrentValue = NewValue) ∧
    (∀ j : Nat, r.smooth dt NewValue (N + j) CurrentValue = NewValue) ∧
    (r.runExactF32 dt NewValue N CurrentValue → roundF32 NewValue = NewValue →
      ∀ j : Nat, r.smoothF32 dt NewValue (N + j) CurrentValue = NewValue) ∧
    (roundF32 NewValue = NewValue → ∀ j : Nat, r.smoothF32 dt NewValue j NewValue = NewValue) := by
  have h1 := smooth_dist_le r dt NewValue hdt.le hR.le hF.le N CurrentValue
  have h2 : |NewValue - r.smooth dt NewValue N CurrentValue| ≤ 0 := by
    refine le_trans h1 (max_le (le_refl _) ?_)
    rw [← mul_assoc]
    linarith
  have h3 : r.smooth dt NewValue N CurrentValue = NewValue := by
    have := abs_eq_zero.1 (le_antisymm h2 (abs_nonneg _))
    linarith
  have hfix : r.InterpInputValue dt NewValue NewValue = NewValue := by
    apply InterpInputValue_arrive
    rw [sub_self, abs_zero]
    exact maxDelta_nonneg r dt _ hdt.le hR.le hF.le
  have h4 : ∀ j : Nat, r.smooth dt NewValue (N + j) CurrentValue = NewValue := by
    intro j
    rw [smooth_add, h3, smooth_fixed r dt NewValue hfix]
  have h5 : roundF32 NewValue = NewValue →
      ∀ j : Nat, r.smoothF32 dt NewValue j NewValue = NewValue := fun hn j =>
    smoothF32_fixed r dt NewValue
      (InterpInputValueF32_fixed r dt NewValue hdt.le hR.le hF.le hn) j
  refine ⟨?_, h3, fun j => ?_, h4, fun he hn j => ?_, h5⟩
  · rw [← smooth_eq_iterate]; exact h3
  · rw [← smooth_eq_iterate]; exact h4 j
  · rw [smoothF32_add, smoothF32_of_runExact r dt NewValue N CurrentValue he, h3]
    exact h5 hn j

theorem InterpInputValue_reaches_target_witness :
    (fun x => (FVehicleInputRate.mk 5 3).InterpInputValue (1 / 10) x 0)^[4] 1 = 0 ∧
      (FVehicleInputRate.mk 4 2).smoothF32 (1 / 8) 0 (4 + 3) 1 = 0 :=
  ⟨(InterpInputValue_reaches_target ⟨5, 3⟩ (1 / 10) 1 0 4 (by norm_num) (by norm_num)
      (by norm_num) (by norm_num)).1,
    (InterpInputValue_reaches_target ⟨4, 2⟩ (1 / 8) 1 0 4 (by norm_num) (by norm_num)
      (by norm_num) (by norm_num)).2.2.2.2.1
      ⟨⟨by decide!, by decide!, by decide!⟩, ⟨by decide!, by decide!, by decide!⟩,
        ⟨by decide!, by decide!, by decide!⟩, ⟨by decide!, by decide!, by decide!⟩, trivial⟩
      roundF32_zero 3⟩

/-! ## Input smoothing (claims C21 to C23) -/

/-- C21 (as amended): where the float operations of the steps incur no rounding, for
dt1, dt2 >= 0, non-negative rates, and CurrentValue c and NewValue t that are not of strictly
opposite signs (c * t >= 0), two steps add up:
InterpInputValue(dt2, InterpInputValue(dt1, c, t), t) = InterpInputValue(dt1 + dt2, c, t).
First over exact arithmetic, then for the binary32 body wherever the subtraction, product
and sum of each of the three calls are exact. -/
theorem InterpInputValue_time_additive (r : FVehicleInputRate) (dt1 dt2 c t : ℚ)
    (hdt1 : 0 ≤ dt1) (hdt2 : 0 ≤ dt2) (hR : 0 ≤ r.RiseRate) (hF : 0 ≤ r.FallRate)
    (hct : 0 ≤ c * t) :
    r.InterpInputValue dt2 (r.InterpInputValue dt1 c t) t =
        r.InterpInputValue (dt1 + dt2) c t ∧
    (r.stepExactF32 dt1 c t → r.stepExactF32 dt2 (r.InterpInputValue dt1 c t) t →
      r.stepExactF32 (dt1 + dt2) c t →
      r.InterpInputValueF32 dt2 (r.InterpInputValueF32 dt1 c t) t =
        r.InterpInputValueF32 (dt1 + dt2) c t) := by
  have key := InterpInputValue_add_time r dt1 dt2 c t hdt1 hdt2 hR hF hct
  refine ⟨key, fun h1 h2 h3 => ?_⟩
  rw [InterpInputValueF32_of_stepExact r dt1 c t h1,
    InterpInputValueF32_of_stepExact r dt2 _ t h2,
    InterpInputValueF32_of_stepExact r (dt1 + dt2) c t h3]
  exact key

theorem InterpInputValue_time_additive_witness :
    (FVehicleInputRate.mk 5 3).InterpInputValue (1 / 5)
        ((FVehicleInputRate.mk 5 3).InterpInputValue (1 / 10) 1 0) 0 =
      (FVehicleInputRate.mk 5 3).InterpInputValue (1 / 10 + 1 / 5) 1 0 ∧
    (FVehicleInputRate.mk 5 3).InterpInputValueF32 (1 / 4)
        ((FVehicleInputRate.mk 5 3).InterpInputValueF32 (1 / 8) 1 0) 0 =
      (FVehicleInputRate.mk 5 3).InterpInputValueF32 (1 / 8 + 1 / 4) 1 0 :=
  ⟨(InterpInputValue_time_additive ⟨5, 3⟩ (1 / 10) (1 / 5) 1 0 (by norm_num) (by norm_num)
      (by norm_num) (by norm_num) (by norm_num)).1,
    (InterpInputValue_time_additive ⟨5, 3⟩ (1 / 8) (1 / 4) 1 0 (by norm_num) (by norm_num)
      (by norm_num) (by norm_num) (by norm_num)).2
      ⟨by decide!, by decide!, by decide!⟩ ⟨by decide!, by decide!, by decide!⟩
      ⟨by decide!, by decide!, by decide!⟩⟩

/-- C23: for fixed DeltaTime >= 0, non-negative rates and fixed CurrentValue, if
NewValue1 <= NewValue2 then
InterpInputValue(dt, CurrentValue, NewValue1) <= InterpInputValue(dt, CurrentValue, NewValue2). -/
theorem InterpInputValue_monotone_target (r : FVehicleInputRate)
    (DeltaTime CurrentValue NewValue1 NewValue2 : ℚ)
    (hdt : 0 ≤ DeltaTime) (hR : 0 ≤ r.RiseRate) (hF : 0 ≤ r.FallRate)
    (h : NewValue1 ≤ NewValue2) :
    r.InterpInputValue DeltaTime CurrentValue NewValue1 ≤
      r.InterpInputValue DeltaTime CurrentValue NewValue2 :=
  InterpInputValue_mono r DeltaTime CurrentValue NewValue1 NewValue2 hdt hR hF h

theorem InterpInputValue_monotone_target_witness :
    (FVehicleInputRate.mk 5 3).InterpInputValue (1 / 10) (1 / 2) (-1) ≤
      (FVehicleInputRate.mk 5 3).InterpInputValue (1 / 10) (1 / 2) 1 :=
  InterpInputValue_monotone_target ⟨5, 3⟩ (1 / 10) (1 / 2) (-1) 1 (by norm_num) (by norm_num)
    (by norm_num) (by norm_num)

/-! ## Binary32 rounding: properties of the step that hold with rounding -/

/-- With rounding the clamped-step formula reads: the binary32 body returns the rounded sum of CurrentValue and the
rounded delta clamped to plus or minus the rounded product of DeltaTime and the rate
selected by the rounded delta. -/
theorem InterpInputValueF32_eq_clamped_step (r : FVehicleInputRate) (dt c n : ℚ) (b : Bool)
    (hb : bRising (roundF32 (n - c)) c = b) :
    r.InterpInputValueF32 dt c n =
      roundF32 (c + Clamp (roundF32 (n - c))
        (-roundF32 (dt * (if b then r.RiseRate else r.FallRate)))
        (roundF32 (dt * (if b then r.RiseRate else r.FallRate)))) := by
  rw [InterpInputValueF32_unfold, hb]

/-- With rounding the rates stay independent: a rising step does not read FallRate and a falling step does not
read RiseRate. -/
theorem InterpInputValueF32_rates_independent (dt c n : ℚ) :
    (bRising (roundF32 (n - c)) c = true → ∀ RiseRate FallRate1 FallRate2 : ℚ,
      (FVehicleInputRate.mk RiseRate FallRate1).InterpInputValueF32 dt c n =
        (FVehicleInputRate.mk RiseRate FallRate2).InterpInputValueF32 dt c n) ∧
    (bRising (roundF32 (n - c)) c = false → ∀ RiseRate1 RiseRate2 FallRate : ℚ,
      (FVehicleInputRate.mk RiseRate1 FallRate).InterpInputValueF32 dt c n =
        (FVehicleInputRate.mk RiseRate2 FallRate).InterpInputValueF32 dt c n) := by
  constructor
  · intro hb R F1 F2
    rw [InterpInputValueF32_eq_clamped_step _ dt c n true hb,
      InterpInputValueF32_eq_clamped_step _ dt c n true hb]
    rfl
  · intro hb R1 R2 F
    rw [InterpInputValueF32_eq_clamped_step _ dt c n false hb,
      InterpInputValueF32_eq_clamped_step _ dt c n false hb]
    rfl

/-- With rounding a rising step from a binary32 current value does not lose magnitude. -/
theorem InterpInputValueF32_rising_gain (r : FVehicleInputRate) (dt c n : ℚ)
    (hdt : 0 ≤ dt) (hR : 0 ≤ r.RiseRate) (hc : roundF32 c = c)
    (hb : bRising (roundF32 (n - c)) c = true) :
    |c| ≤ |r.InterpInputValueF32 dt c n| := by
  rw [InterpInputValueF32_eq_clamped_step r dt c n true hb]
  simp only [if_true]
  have hm : 0 ≤ roundF32 (dt * r.RiseRate) := roundF32_nonneg _ (mul_nonneg hdt hR)
  generalize roundF32 (dt * r.RiseRate) = m at hm
  generalize roundF32 (n - c) = d at hb
  rcases (bRising_eq_true_iff _ _).1 hb with h | ⟨_, h⟩
  · rcases lt_or_le 0 c with h0 | h0
    · have hd := h.2 h0
      have hcl := Clamp_nonneg_arg d m hm hd.le
      have hmono := roundF32_mono c (c + Clamp d (-m) m) (by linarith [hcl.1])
      rw [hc] at hmono
      rw [abs_of_pos h0, abs_of_nonneg (by linarith)]
      exact hmono
    · have hd : d ≤ 0 := not_lt.1 (fun h1 => not_lt.2 h0 (h.1 h1))
      have hcl := Clamp_nonpos_arg d m hm hd
      have hmono := roundF32_mono (c + Clamp d (-m) m) c (by linarith [hcl.2])
      rw [hc] at hmono
      rw [abs_of_nonpos h0, abs_of_nonpos (by linarith)]
      linarith
  · rw [h, abs_zero]
    exact abs_nonneg _

/-- With rounding the binary32 step is monotone in the target, for a fixed current value. -/
theorem InterpInputValueF32_mono (r : FVehicleInputRate) (dt c n1 n2 : ℚ)
    (hdt : 0 ≤ dt) (hR : 0 ≤ r.RiseRate) (hF : 0 ≤ r.FallRate) (h : n1 ≤ n2) :
    r.InterpInputValueF32 dt c n1 ≤ r.InterpInputValueF32 dt c n2 := by
  rw [InterpInputValueF32_unfold, InterpInputValueF32_unfold]
  have hd := roundF32_mono (n1 - c) (n2 - c) (by linarith)
  have hm1 := roundF32_maxDelta_nonneg r dt (bRising (roundF32 (n1 - c)) c) hdt hR hF
  have hm2 := roundF32_maxDelta_nonneg r dt (bRising (roundF32 (n2 - c)) c) hdt hR hF
  apply roundF32_mono
  generalize roundF32 (n1 - c) = d1 at hd hm1
  generalize roundF32 (n2 - c) = d2 at hd hm2
  rcases lt_or_le 0 d1 with h1 | h1
  · have hb := bRising_congr_of_pos d1 d2 c h1 (by linarith)
    rw [hb]
    have := Clamp_mono d1 d2 _ _ (by linarith : -roundF32 (dt * (if bRising d2 c then
      r.RiseRate else r.FallRate)) ≤ roundF32 (dt * (if bRising d2 c then r.RiseRate
      else r.FallRate))) hd
    linarith
  · rcases le_or_lt 0 d2 with h2 | h2
    · have a := (Clamp_nonpos_arg d1 _ hm1 h1).2
      have b := (Clamp_nonneg_arg d2 _ hm2 h2).1
      linarith
    · have hb := bRising_congr_of_neg d1 d2 c (by linarith) h2
      rw [hb]
      have := Clamp_mono d1 d2 _ _ (by linarith : -roundF32 (dt * (if bRising d2 c then
        r.RiseRate else r.FallRate)) ≤ roundF32 (dt * (if bRising d2 c then r.RiseRate
        else r.FallRate))) hd
      linarith

/-! ## Binary32 rounding: inputs at which the claims as stated fail -/

/-- Counterexample to claim C6 as stated, on the binary32 code: with lo = 0.1f, hi = 0.5,
both rates 5 and DeltaTime = 0.1f, CurrentValue = 0.5 and NewValue = 0.1f lie in
[lo, hi] but the returned value 0.099999994 lies below lo. -/
theorem InterpInputValueF32_leaves_range :
    f32_tenth ≤ 1 / 2 ∧ (f32_tenth ≤ (1 / 2 : ℚ) ∧ (1 / 2 : ℚ) ≤ 1 / 2) ∧
      (f32_tenth ≤ f32_tenth ∧ f32_tenth ≤ 1 / 2) ∧
      (FVehicleInputRate.mk 5 5).InterpInputValueF32 f32_tenth (1 / 2) f32_tenth < f32_tenth := by
  have h : (FVehicleInputRate.mk 5 5).InterpInputValueF32 f32_tenth (1 / 2) f32_tenth =
      3355443 / 33554432 := by decide!
  rw [h]
  refine ⟨?_, ⟨?_, le_refl _⟩, ⟨le_refl _, ?_⟩, ?_⟩ <;> norm_num [f32_tenth]

/-- Counterexample to claim C20 as stated, on the binary32 code: with both rates 5,
dt = 1.0f/60.0f, CurrentValue = 0, NewValue = 1 and N = 12 the hypothesis
N * dt * min(RiseRate, FallRate) >= |NewValue - CurrentValue| holds, yet after 12
ticks the value is 0.99999988 (8388607 / 2^23), not 1. -/
theorem smoothF32_not_arrived :
    |(1 : ℚ) - 0| ≤ ((12 : Nat) : ℚ) * f32_sixtieth * min 5 5 ∧
      (FVehicleInputRate.mk 5 5).smoothF32 f32_sixtieth 1 12 0 = 8388607 / 8388608 ∧
      (FVehicleInputRate.mk 5 5).smoothF32 f32_sixtieth 1 12 0 ≠ 1 := by
  have h : (FVehicleInputRate.mk 5 5).smoothF32 f32_sixtieth 1 12 0 = 8388607 / 8388608 := by
    decide!
  rw [h]
  refine ⟨?_, rfl, by norm_num⟩
  norm_num [f32_sixtieth]

/-- Counterexample to claim C21 as stated, on the binary32 code: with both rates 5,
dt1 = dt2 = 1.0f/60.0f, c = 1 and t = 0 (so c * t >= 0) two ticks give 0.83333337
(6990507 / 2^23) and one tick of length dt1 + dt2 gives 0.83333331 (13981013 / 2^24). -/
theorem InterpInputValueF32_not_additive :
    (0 : ℚ) ≤ 1 * 0 ∧
      (FVehicleInputRate.mk 5 5).InterpInputValueF32 f32_sixtieth
        ((FVehicleInputRate.mk 5 5).InterpInputValueF32 f32_sixtieth 1 0) 0 =
          6990507 / 8388608 ∧
      (FVehicleInputRate.mk 5 5).InterpInputValueF32 (f32_sixtieth + f32_sixtieth) 1 0 =
          13981013 / 16777216 ∧
      (FVehicleInputRate.mk 5 5).InterpInputValueF32 f32_sixtieth
        ((FVehicleInputRate.mk 5 5).InterpInputValueF32 f32_sixtieth 1 0) 0 ≠
      (FVehicleInputRate.mk 5 5).InterpInputValueF32 (f32_sixtieth + f32_sixtieth) 1 0 := by
  have h1 : (FVehicleInputRate.mk 5 5).InterpInputValueF32 f32_sixtieth
      ((FVehicleInputRate.mk 5 5).InterpInputValueF32 f32_sixtieth 1 0) 0 =
        6990507 / 8388608 := by decide!
  have h2 : (FVehicleInputRate.mk 5 5).InterpInputValueF32 (f32_sixtieth + f32_sixtieth) 1 0 =
      13981013 / 16777216 := by decide!
  rw [h1, h2]
  refine ⟨by norm_num, rfl, rfl, by norm_num⟩

end PhysXVehicles
